import Mathlib

/-!
Verification of the sgf package (Smart Game Format parser) against its
specification.  The development shallowly embeds the two Go packages:

* `Sgf` — the data model (`GameTree`, `Node`, `Property`, `PropertyValue`),
  the property-type registry and the value-shape validation engine
  (`sgf.go`);
* `Parse` — the byte-level tokenizer (lexer) and the recursive-descent
  tree builder (`parse` package).

Go strings are modelled as Lean `String` (a wrapper around `List Char`);
the lexer works over `List Char`, mirroring the byte slices of the source.
Go functions that mutate a receiver and return an `error` are modelled as
functions returning the updated value together with an `Option String`
error.
-/

namespace Sgf

/-- Splits a list on a single-character separator, as Go
`strings.Split(s, sep)` for a one-character `sep`.  The accumulator holds
the current field. -/
def splitOnCharAux (sep : Char) (cur : List Char) : List Char → List (List Char)
  | [] => [cur]
  | c :: rest =>
    if c = sep then cur :: splitOnCharAux sep [] rest
    else splitOnCharAux sep (cur ++ [c]) rest

/-- Go `strings.Split(s, string(sep))` for a one-character separator. -/
def splitOnChar (s : List Char) (sep : Char) : List (List Char) :=
  splitOnCharAux sep [] s

/-- Splits a list around each leftmost non-overlapping occurrence of the
(non-empty) separator `sep`, as Go `strings.Split`.  `skip` counts
separator characters that remain to be consumed after a match; `cur` is
the current field. -/
def splitOnListAux (sep : List Char) (cur : List Char) (skip : Nat) : List Char → List (List Char)
  | [] => [cur]
  | c :: rest =>
    match skip with
    | k + 1 => splitOnListAux sep cur k rest
    | 0 =>
      if sep.isPrefixOf (c :: rest) then
        cur :: splitOnListAux sep [] (sep.length - 1) rest
      else
        splitOnListAux sep (cur ++ [c]) 0 rest

/-- Go `strings.Split(s, sep)` for a non-empty separator `sep`. -/
def splitOnList (s : List Char) (sep : List Char) : List (List Char) :=
  splitOnListAux sep [] 0 s

/-- Validation status of a `Property` (Go `ValidationStatus`). -/
inductive ValidationStatus where
  | notValidated
  | validationDeferred
  | valid
  | invalid
deriving DecidableEq, Repr

/-- Semantic category of a property (Go `PropertyType`). -/
inductive PropertyType where
  | root
  | gameInfo
  | setup
  | move
  | null
  | unknown
deriving DecidableEq, Repr

/-- List cardinality of a property (Go `propertyListiness`). -/
inductive propertyListiness where
  | notList
  | list
  | elist
  | unknownList
deriving DecidableEq, Repr

/-- Registry entry (Go `propertyTypeInfo`): description, category,
validator (value-shape grammar) name, and listiness. -/
structure propertyTypeInfo where
  d : String
  t : PropertyType
  vn : String
  l : propertyListiness
deriving DecidableEq, Repr

/-- A single property value (Go `PropertyValue`): raw text plus the name
of the value-shape grammar it is validated against. -/
structure PropertyValue where
  value : String
  validatorName : String
deriving DecidableEq, Repr

/-- A property (Go `Property`). -/
structure Property where
  type : PropertyType
  identity : String
  values : List PropertyValue
  description : String
  validated : ValidationStatus
  validatorName : String
  listiness : propertyListiness
deriving DecidableEq, Repr

/-- A node (Go `Node`): an ordered list of properties. -/
structure Node where
  properties : List Property
deriving DecidableEq, Repr

/-- A game tree (Go `GameTree`): a trunk sequence of nodes plus subtrees. -/
inductive GameTree where
  | mk : List Node → List GameTree → GameTree

/-- The trunk sequence of a `GameTree`. -/
def GameTree.sequence : GameTree → List Node
  | .mk s _ => s

/-- The subtrees (variations) of a `GameTree`. -/
def GameTree.subtrees : GameTree → List GameTree
  | .mk _ t => t

/-- The static property-type registry (Go `propertyTypeMap`), as a lookup
function from property identity to registry entry. -/
def propertyTypeMap : String → Option propertyTypeInfo
  | "" => some ⟨"Empty property", .unknown, "none", .notList⟩
  | "B" => some ⟨"Black", .move, "move", .notList⟩
  | "BL" => some ⟨"Black time left", .move, "real", .notList⟩
  | "BM" => some ⟨"Bad move", .move, "double", .notList⟩
  | "DO" => some ⟨"Doubtful", .move, "none", .notList⟩
  | "IT" => some ⟨"Interesting", .move, "none", .notList⟩
  | "KO" => some ⟨"Ko", .move, "none", .notList⟩
  | "MN" => some ⟨"set MoveNumber", .move, "none", .notList⟩
  | "OB" => some ⟨"OtStones Black", .move, "number", .notList⟩
  | "OW" => some ⟨"OtStones White", .move, "number", .notList⟩
  | "TE" => some ⟨"Tesuji", .move, "double", .notList⟩
  | "W" => some ⟨"White", .move, "move", .notList⟩
  | "WL" => some ⟨"White time left", .move, "real", .notList⟩
  | "AB" => some ⟨"Add Black", .setup, "stone", .list⟩
  | "AE" => some ⟨"Add Empty", .setup, "point", .list⟩
  | "AW" => some ⟨"Add White", .setup, "stone", .list⟩
  | "PL" => some ⟨"Player to play", .setup, "color", .notList⟩
  | "AR" => some ⟨"Arrow", .null, "point : point", .list⟩
  | "C" => some ⟨"Comment", .null, "text", .notList⟩
  | "CR" => some ⟨"Circle", .null, "point", .list⟩
  | "DD" => some ⟨"Dim points", .null, "point", .elist⟩
  | "DM" => some ⟨"Even position", .null, "double", .notList⟩
  | "FG" => some ⟨"Figure", .null, "none | number : simpletext", .notList⟩
  | "GB" => some ⟨"Good for Black", .null, "double", .notList⟩
  | "GW" => some ⟨"Good for White", .null, "double", .notList⟩
  | "HO" => some ⟨"Hotspot", .null, "double", .notList⟩
  | "LB" => some ⟨"Label", .null, "point : simpletext", .list⟩
  | "LN" => some ⟨"Line", .null, "point : point", .list⟩
  | "MA" => some ⟨"Mark", .null, "point", .list⟩
  | "N" => some ⟨"Nodename", .null, "simpletext", .notList⟩
  | "PM" => some ⟨"Print move mode", .null, "number", .notList⟩
  | "SL" => some ⟨"Selected", .null, "point", .list⟩
  | "SQ" => some ⟨"Square", .null, "point", .list⟩
  | "TR" => some ⟨"Triangle", .null, "point", .list⟩
  | "UC" => some ⟨"Unclear pos", .null, "double", .notList⟩
  | "VW" => some ⟨"View", .null, "point", .elist⟩
  | "AP" => some ⟨"Application", .root, "simpletext : number", .notList⟩
  | "CA" => some ⟨"Charset", .root, "simpletext", .notList⟩
  | "FF" => some ⟨"Fileformat", .root, "number", .notList⟩
  | "GM" => some ⟨"Game", .root, "number", .notList⟩
  | "ST" => some ⟨"Style", .root, "number", .notList⟩
  | "SZ" => some ⟨"Size", .root, "number | number : number", .notList⟩
  | "AN" => some ⟨"Annotation", .gameInfo, "simpletext", .notList⟩
  | "BR" => some ⟨"Black rank", .gameInfo, "simpletext", .notList⟩
  | "BT" => some ⟨"Black team", .gameInfo, "simpletext", .notList⟩
  | "CP" => some ⟨"Copyright", .gameInfo, "simpletext", .notList⟩
  | "DT" => some ⟨"Date", .gameInfo, "simpletext", .notList⟩
  | "EV" => some ⟨"Event", .gameInfo, "simpletext", .notList⟩
  | "GC" => some ⟨"Game comment", .gameInfo, "text", .notList⟩
  | "GN" => some ⟨"Game name", .gameInfo, "simpletext", .notList⟩
  | "OP" => some ⟨"Opening", .gameInfo, "simpletext", .notList⟩
  | "PB" => some ⟨"Player Black", .gameInfo, "simpletext", .notList⟩
  | "PC" => some ⟨"Place", .gameInfo, "simpletext", .notList⟩
  | "PW" => some ⟨"Player White", .gameInfo, "simpletext", .notList⟩
  | "RE" => some ⟨"Result", .gameInfo, "simpletext", .notList⟩
  | "RO" => some ⟨"Round", .gameInfo, "simpletext", .notList⟩
  | "RU" => some ⟨"Rules", .gameInfo, "simpletext", .notList⟩
  | "SO" => some ⟨"Source", .gameInfo, "simpletext", .notList⟩
  | "TM" => some ⟨"Timelimit", .gameInfo, "real", .notList⟩
  | "US" => some ⟨"User", .gameInfo, "simpletext", .notList⟩
  | "WR" => some ⟨"White rank", .gameInfo, "simpletext", .notList⟩
  | "WT" => some ⟨"White team", .gameInfo, "simpletext", .notList⟩
  | "TB" => some ⟨"Territory Black", .null, "point", .elist⟩
  | "TW" => some ⟨"Territory White", .null, "point", .elist⟩
  | "HA" => some ⟨"Handicap", .gameInfo, "number", .notList⟩
  | "KM" => some ⟨"Komi", .gameInfo, "real", .notList⟩
  | "AS" => some ⟨"Who adds stones", .null, "simpletext", .notList⟩
  | "IP" => some ⟨"Initial pos.", .gameInfo, "simpletext", .notList⟩
  | "IY" => some ⟨"Invert Y-axis", .gameInfo, "simpletext", .notList⟩
  | "SE" => some ⟨"Markup", .null, "point", .notList⟩
  | "SU" => some ⟨"Setup type", .gameInfo, "simpletext", .notList⟩
  | _ => none

/-- Strips one optional leading `+` or `-` sign (the `[\+-]?` part of the
`number` and `real` regular expressions). -/
def stripSign : List Char → List Char
  | '+' :: rest => rest
  | '-' :: rest => rest
  | l => l

/-- Whether `s` matches the Go regular expression `^[\+-]?\d+$` used for
the `number` atom: an optional sign followed by one or more ASCII
digits. -/
def numberMatch (s : List Char) : Bool :=
  let t := stripSign s
  !t.isEmpty && t.all Char.isDigit

/-- Whether `s` matches the Go regular expression `^[\+-]?\d+(.\d+)?$`
used for the `real` atom.  The `.` in the source pattern is not escaped,
so it matches any single character other than a newline (RE2 semantics).
The decomposition is computed deterministically against the maximal
leading digit run, which is equivalent to the existential regex match:
if the optional group is taken with a digit as its first character, the
whole string is a digit run and the group-free alternative also
matches. -/
def realMatch (s : List Char) : Bool :=
  let t := stripSign s
  let ds := t.takeWhile Char.isDigit
  let r := t.dropWhile Char.isDigit
  !ds.isEmpty &&
    (r.isEmpty ||
      (match r with
       | c :: rest => c ≠ '\n' && !rest.isEmpty && rest.all Char.isDigit
       | [] => false))

/-- Go `validatePropertyValuePart`: validates a single colon-part of a
value against a single atom of the value-shape grammar. -/
def validatePropertyValuePart (validator : List Char) (value : List Char) : Option String :=
  if validator = "unknown".data then none
  else if validator = "none".data then
    if value = [] then none
    else some "None type Property Values must be empty"
  else if validator = "double".data then
    if value = "1".data ∨ value = "2".data then none
    else some "Double type Property Values must be either '1' or '2'"
  else if validator = "color".data then
    if value = "B".data ∨ value = "W".data then none
    else some "Color type Property Values must be either 'B' or 'W'"
  else if validator = "number".data then
    if numberMatch value then none
    else some "Number type Property Value expected positive or negative integer"
  else if validator = "real".data then
    if realMatch value then none
    else some "Real type Property Value expected positive or negative real number"
  else if validator = "text".data ∨ validator = "simpletext".data then none
  else if validator = "move".data ∨ validator = "stone".data ∨ validator = "point".data then
    some "validation deferred: must be validated in the context of the full SGF structure"
  else
    some ("No validation implemented for type " ++ String.mk validator ++
      " and value " ++ String.mk value)

/-- The inner loop of Go `validatePropertyValue` for one alternative:
validate each colon-part against its atom, short-circuiting on the first
failing part. -/
def altCheckParts : List (List Char × List Char) → Option String
  | [] => none
  | (validator, value) :: rest =>
    match validatePropertyValuePart validator value with
    | some e => some e
    | none => altCheckParts rest

/-- One alternative of Go `validatePropertyValue`: split the alternative
on `" : "` into atoms and the value on `":"` into parts; a part-count
mismatch is an error, otherwise each part is validated against its atom
in order. -/
def altCheck (vnPart : List Char) (value : List Char) : Option String :=
  let composedParts := splitOnList vnPart " : ".data
  let valueParts := splitOnChar value ':'
  if composedParts.length ≠ valueParts.length then
    some "not enough parts in composition"
  else
    altCheckParts (composedParts.zip valueParts)

/-- Go `validatePropertyValue`: the value is valid if any `" | "`
alternative of the validator validates it; if every alternative fails the
first alternative's failure is returned. -/
def validatePropertyValue (pv : PropertyValue) : Option String :=
  let vnParts := splitOnList pv.validatorName.data " | ".data
  let errors := vnParts.map (fun vnPart => altCheck vnPart pv.value.data)
  if errors.all Option.isSome then (errors.filterMap id).head? else none

/-- Whether an error message is the deferred-validation marker (Go
`strings.HasPrefix(err.Error(), "validation deferred:")`). -/
def isDeferredErr (e : String) : Bool :=
  "validation deferred:".data.isPrefixOf e.data

/-- A value's validation is deferred: it returns an error carrying the
`"validation deferred:"` marker (Go's `strings.HasPrefix` test in
`validatePropertyValues`). -/
def valueDeferredB (pv : PropertyValue) : Bool :=
  match validatePropertyValue pv with
  | some e => isDeferredErr e
  | none => false

/-- The non-deferred error of a value's validation, if any (a `nil`
entry of the Go `errors` slice otherwise). -/
def valueErr (pv : PropertyValue) : Option String :=
  match validatePropertyValue pv with
  | some e => if isDeferredErr e then none else some e
  | none => none

/-- A value fails its grammar outright (its validation returns a
non-deferred error). -/
def valueFails (pv : PropertyValue) : Bool :=
  (valueErr pv).isSome

/-- Go `Property.validatePropertyValues`: recomputes the validation
status across all values.  A not-a-list property with more than one value
is invalid outright; otherwise every value is validated, a deferred
result marks the property deferred, and the first real error (the Go
`first_error` over the `errors` slice) marks it invalid. -/
def Property.validatePropertyValues (p : Property) : Property × Option String :=
  if p.listiness = .notList ∧ p.values.length > 1 then
    ({ p with validated := .invalid },
      some ("Property " ++ p.identity ++ " can only have one value"))
  else
    let anyDeferred := p.values.any valueDeferredB
    match (p.values.filterMap valueErr).head? with
    | some e => ({ p with validated := .invalid }, some e)
    | none =>
      ({ p with validated := if anyDeferred then .validationDeferred else .valid }, none)

/-- Go `NewProperty`: builds a property, resolving its registry metadata
(or the unknown defaults) and validating the given values.  When the
identity is found in the registry, the values' validator names are set to
the registry's grammar; otherwise the values keep their own. -/
def NewProperty (identity : String) (values : List PropertyValue) : Property × Option String :=
  let p : Property :=
    match propertyTypeMap identity with
    | some typeInfo =>
      { identity := identity
        values := values.map (fun v => { v with validatorName := typeInfo.vn })
        validated := .notValidated
        type := typeInfo.t
        description := typeInfo.d
        validatorName := typeInfo.vn
        listiness := typeInfo.l }
    | none =>
      { identity := identity
        values := values
        validated := .notValidated
        type := .unknown
        description := "unknown"
        validatorName := "unknown"
        listiness := .unknownList }
  p.validatePropertyValues

/-- Go `Property.AddValue`: attaches a value (inheriting the property's
validator name when the value's is the `"unknown"` placeholder) and
re-validates. -/
def Property.AddValue (p : Property) (pv : PropertyValue) : Property × Option String :=
  let pv' := if pv.validatorName = "unknown" then { pv with validatorName := p.validatorName } else pv
  Property.validatePropertyValues { p with values := p.values ++ [pv'] }

/-- Go `NewPropertyValue` (the error it returns is always nil, so only
the value is modelled). -/
def NewPropertyValue (v : String) : PropertyValue :=
  { value := v, validatorName := "unknown" }

/-- Go `NewEmptyPropertyValue`. -/
def NewEmptyPropertyValue : PropertyValue :=
  { value := "", validatorName := "unknown" }

/-- Go `PropertyValue.SetValue` (always returns nil error). -/
def PropertyValue.SetValue (pv : PropertyValue) (v : String) : PropertyValue :=
  { pv with value := v }

/-- Go `Node.AddProperty`: rejects a property whose identity already
occurs in the node, otherwise appends it. -/
def Node.AddProperty (props : List Property) (p : Property) : Except String (List Property) :=
  if props.any (fun existingProperty => p.identity = existingProperty.identity) then
    .error "sgf: only one of each property is allowed per node"
  else
    .ok (props ++ [p])

/-- Go `PropertyValue.String`: `"[" + Value + "]"`. -/
def PropertyValue.toString (v : PropertyValue) : String :=
  "[" ++ v.value ++ "]"

/-- Go `Property.String`: the identity followed by each value. -/
def Property.toString (p : Property) : String :=
  p.identity ++ String.join (p.values.map PropertyValue.toString)

/-- Go `Node.String`: a semicolon followed by each property. -/
def Node.toString (n : Node) : String :=
  ";" ++ String.join (n.properties.map Property.toString)

mutual

/-- Go `GameTree.String`: `"("`, the nodes, the subtrees, `")"`. -/
def GameTree.toString : GameTree → String
  | .mk sequence subtrees =>
    "(" ++ String.join (sequence.map Node.toString) ++ GameTree.subtreesString subtrees ++ ")"

/-- Serialization of a list of subtrees, in order. -/
def GameTree.subtreesString : List GameTree → String
  | [] => ""
  | st :: rest => GameTree.toString st ++ GameTree.subtreesString rest

end

/-- Serialization of a whole collection: each tree's `String()`
concatenated in order. -/
def collectionString : List GameTree → String
  | [] => ""
  | gt :: rest => GameTree.toString gt ++ collectionString rest

end Sgf

namespace Parse

/-- A lexical token (Go `item`).  The constructors are the Go `itemType`
constants; the byte-slice payload is kept for identifiers and values (as
the characters of the input slice) and for error/warning messages (as the
formatted message string).  Positions are not modelled. -/
inductive item where
  | error (msg : String)
  | warning (msg : String)
  | openParen
  | closeParen
  | openBracket
  | closeBracket
  | semiColon
  | eofItem
  | propertyIdent (val : List Char)
  | propertyValue (val : List Char)
deriving DecidableEq, Repr

/-- Go `const eof = 0`: the lexer's `next` returns the byte 0 both at the
end of the buffer and for a literal NUL byte, so a NUL in the input is
treated like end-of-input by every state. -/
def eofChar : Char := Char.ofNat 0

/-- The characters consumed by Go `consumeWhitespace`. -/
def whitespaceChar (c : Char) : Bool := c = ' ' ∨ c = '\n' ∨ c = '\t'

/-- The lexer states (Go `stateFn` values).  `lexIdent` is Go
`lexProperty` up to the identifier run (with `acc` the identifier
characters read so far; leading whitespace is consumed while `acc` is
empty, matching the initial `consumeWhitespace`).  `lexValue` is the
value loop (`esc` records that the previous character was a backslash,
whose follower is consumed blindly).  `lexAfterValue` is the
whitespace-skip and one-character lookahead dispatch after a closing
bracket. -/
inductive stateFn where
  | lexBytes
  | lexTree
  | lexIdent (acc : List Char)
  | lexValue (acc : List Char) (esc : Bool)
  | lexAfterValue
deriving DecidableEq, Repr

/-- Go's `lexer.run`, one character per step.  The `Nat` argument is the
lexer's `treeDepth`.  Each Go state function consumes its characters via
`next`; the states that dispatch without consuming (`lexOpenParen`,
`lexCloseParen`, `lexSemiColon`, and the `peek` after a value) are
inlined into the state that consumed the character.  A fatal error stops
production after the error item; `eofItem` is emitted only from
`lexBytes`. -/
def run : stateFn → Nat → List Char → List item
  | .lexBytes, _, [] => [.eofItem]
  | .lexBytes, treeDepth, c :: rest =>
    if c = eofChar then [.eofItem]
    else if c = '(' then .openParen :: run .lexTree (treeDepth + 1) rest
    else if c = ')' then
      if treeDepth = 0 then [.error "lex: too many right parentheses"]
      else
        .closeParen ::
          (if treeDepth - 1 > 0 then run .lexTree (treeDepth - 1) rest
           else run .lexBytes (treeDepth - 1) rest)
    else run .lexBytes treeDepth rest
  | .lexTree, _, [] => [.error "lex: unexpected EOF; expected GameTree contents or ')'"]
  | .lexTree, treeDepth, c :: rest =>
    if c = eofChar then [.error "lex: unexpected EOF; expected GameTree contents or ')'"]
    else if c = ';' then .semiColon :: run (.lexIdent []) treeDepth rest
    else if c = '(' then .openParen :: run .lexTree (treeDepth + 1) rest
    else if c = ')' then
      if treeDepth = 0 then [.error "lex: too many right parentheses"]
      else
        .closeParen ::
          (if treeDepth - 1 > 0 then run .lexTree (treeDepth - 1) rest
           else run .lexBytes (treeDepth - 1) rest)
    else run .lexTree treeDepth rest
  | .lexIdent _, _, [] => [.error "lex: unexpected EOF; expected PropertyIdent"]
  | .lexIdent acc, treeDepth, c :: rest =>
    if acc = [] ∧ whitespaceChar c then run (.lexIdent []) treeDepth rest
    else if c = eofChar then [.error "lex: unexpected EOF; expected PropertyIdent"]
    else if c = ';' then
      if acc = [] then .semiColon :: run (.lexIdent []) treeDepth rest
      else [.error "lex: unexpected ';'; expected PropertyIdent"]
    else if c = '[' then
      (if acc.length > 2 then [.warning "lex: Found PropertyIdent wider than 2 characters"] else []) ++
        .propertyIdent acc :: .openBracket :: run (.lexValue [] false) treeDepth rest
    else if c < 'A' ∨ 'Z' < c then [.error "lex: PropertyIdent must be upper-case letters"]
    else run (.lexIdent (acc ++ [c])) treeDepth rest
  | .lexValue _ _, _, [] => [.error "lex: unexpected EOF; expected PropertyValue"]
  | .lexValue acc esc, treeDepth, c :: rest =>
    if esc then run (.lexValue (acc ++ [c]) false) treeDepth rest
    else if c = eofChar then [.error "lex: unexpected EOF; expected PropertyValue"]
    else if c = '\\' then run (.lexValue (acc ++ [c]) true) treeDepth rest
    else if c = ']' then
      .propertyValue acc :: .closeBracket :: run .lexAfterValue treeDepth rest
    else run (.lexValue (acc ++ [c]) false) treeDepth rest
  | .lexAfterValue, _, [] => [.error "lex: unexpected EOF; expected GameTree contents or ')'"]
  | .lexAfterValue, treeDepth, c :: rest =>
    if whitespaceChar c then run .lexAfterValue treeDepth rest
    else if c = ';' then .semiColon :: run (.lexIdent []) treeDepth rest
    else if c = '(' then .openParen :: run .lexTree (treeDepth + 1) rest
    else if c = ')' then
      if treeDepth = 0 then [.error "lex: too many right parentheses"]
      else
        .closeParen ::
          (if treeDepth - 1 > 0 then run .lexTree (treeDepth - 1) rest
           else run .lexBytes (treeDepth - 1) rest)
    else if c = eofChar then [.error "lex: unexpected EOF; expected GameTree contents or ')'"]
    else if c = '[' then
      .propertyIdent [] :: .openBracket :: run (.lexValue [] false) treeDepth rest
    else if c < 'A' ∨ 'Z' < c then [.error "lex: PropertyIdent must be upper-case letters"]
    else run (.lexIdent [c]) treeDepth rest

/-- Go `lex`: start the state machine at `lexBytes` with depth 0. -/
def lex (input : List Char) : List item :=
  run .lexBytes 0 input

end Parse

namespace Parse

/-- One lowercase hexadecimal digit. -/
def hexDigit (n : Nat) : Char :=
  if n < 10 then Char.ofNat (48 + n) else Char.ofNat (97 + n - 10)

/-- Quoting of one byte as in Go `%q` on a byte slice: common escapes,
printable ASCII kept literal, other control bytes as `\xHH`.  Printable
non-ASCII runes are kept literal (an approximation of Go's
`unicode.IsPrint`; this only affects the text of `parse: unexpected
item:` messages for truncated identifier/value items). -/
def goQuoteChar (c : Char) : List Char :=
  if c = '"' then ['\\', '"']
  else if c = '\\' then ['\\', '\\']
  else if c = '\n' then ['\\', 'n']
  else if c = '\t' then ['\\', 't']
  else if c = '\r' then ['\\', 'r']
  else if c.toNat < 0x20 then ['\\', 'x', hexDigit (c.toNat / 16 % 16), hexDigit (c.toNat % 16)]
  else [c]

/-- Go `%q` of a byte slice, with the surrounding double quotes. -/
def goQuote (val : List Char) : String :=
  String.mk ('"' :: (val.flatMap goQuoteChar) ++ ['"'])

/-- Go `item.String`. -/
def itemString : item → String
  | .eofItem => "EOF"
  | .error msg => msg
  | .warning msg => msg
  | .openParen => "("
  | .closeParen => ")"
  | .openBracket => "["
  | .closeBracket => "]"
  | .semiColon => ";"
  | .propertyIdent val =>
    if val.length > 10 then goQuote (val.take 10) ++ "..." else goQuote val
  | .propertyValue val =>
    if val.length > 10 then goQuote (val.take 10) ++ "..." else goQuote val

/-- Go `parseNode`: consumes items until a semicolon, close-paren or
open-paren (returned unconsumed as the `item` component), building up the
node's properties.  `props` is the node built so far,
`currentProperty`/`currentPropertyValue` the pending property and value.
On the closing-bracket item with a pending value but no pending property
the Go code dereferences a nil `*Property` pointer and panics; that state
is unreachable from the lexer's output and is modelled as an error. -/
def parseNode (props : List Sgf.Property) (currentProperty : Option Sgf.Property)
    (currentPropertyValue : Option Sgf.PropertyValue) :
    List item → Except String (Sgf.Node × item × List item)
  | [] => .error "parse: lexer channel closed unexpectedly"
  | .semiColon :: rest =>
    match currentProperty with
    | some p =>
      match Sgf.Node.AddProperty props p with
      | .error e => .error e
      | .ok props' => .ok (⟨props'⟩, .semiColon, rest)
    | none => .ok (⟨props⟩, .semiColon, rest)
  | .closeParen :: rest =>
    match currentProperty with
    | some p =>
      match Sgf.Node.AddProperty props p with
      | .error e => .error e
      | .ok props' => .ok (⟨props'⟩, .closeParen, rest)
    | none => .ok (⟨props⟩, .closeParen, rest)
  | .openParen :: rest =>
    match currentProperty with
    | some p =>
      match Sgf.Node.AddProperty props p with
      | .error e => .error e
      | .ok props' => .ok (⟨props'⟩, .openParen, rest)
    | none => .ok (⟨props⟩, .openParen, rest)
  | .propertyIdent v :: rest =>
    match currentProperty with
    | some p =>
      match Sgf.Node.AddProperty props p with
      | .error e => .error e
      | .ok props' =>
        match Sgf.NewProperty (String.mk v) [] with
        | (_, some e) => .error e
        | (p', none) => parseNode props' (some p') currentPropertyValue rest
    | none =>
      match Sgf.NewProperty (String.mk v) [] with
      | (_, some e) => .error e
      | (p', none) => parseNode props (some p') currentPropertyValue rest
  | .openBracket :: rest =>
    parseNode props currentProperty (some Sgf.NewEmptyPropertyValue) rest
  | .propertyValue v :: rest =>
    match currentPropertyValue with
    | some pv => parseNode props currentProperty (some (pv.SetValue (String.mk v))) rest
    | none => .error "parse: got a property value without an opening ["
  | .closeBracket :: rest =>
    match currentPropertyValue with
    | some pv =>
      match currentProperty with
      | some p =>
        match Sgf.Property.AddValue p pv with
        | (_, some e) => .error e
        | (p', none) => parseNode props (some p') none rest
      | none => .error "parse: panic: nil currentProperty"
    | none => .error "parse: got a closing ] without an opening ["
  | .error msg :: _ => .error msg
  | .warning msg :: _ => .error ("parse: unexpected item: " ++ itemString (.warning msg))
  | .eofItem :: _ => .error ("parse: unexpected item: " ++ itemString .eofItem)

/-- `parseNode` consumes at least one item before returning. -/
theorem parseNode_len : ∀ (items : List item) (props cur curpv) {n it rest},
    parseNode props cur curpv items = .ok (n, it, rest) → rest.length < items.length := by
  intro items
  induction items with
  | nil =>
    intro props cur curpv n it rest h
    simp [parseNode] at h
  | cons i tl ih =>
    intro props cur curpv n it rest h
    cases i <;> simp only [parseNode] at h <;>
      ((try split at h) <;> (try split at h) <;> (try split at h)) <;>
      first
      | (cases h; simp)
      | (simp only [List.length_cons]
         have hrec := ih _ _ _ h
         omega)
      | simp_all

end Parse

namespace Parse

/-- The loop of Go `parseSequence`: `it` is the lexer item under
consideration (Go's `lastItem`), `sequence` the nodes parsed so far.  A
semicolon starts another node; an empty sequence at loop exit is the
fatal empty-sequence error. -/
def parseSeqGo (sequence : List Sgf.Node) (it : item) (items : List item) :
    Except String (List Sgf.Node × item × List item) :=
  match it with
  | .semiColon =>
    match h : parseNode [] none none items with
    | .error e => .error e
    | .ok (n, it', rest) => parseSeqGo (sequence ++ [n]) it' rest
  | .error msg => .error msg
  -- the Go switch default, spelled out per constructor so that the
  -- equation lemmas are unconditional
  | .warning msg =>
    if sequence.isEmpty then
      .error "parse: the GameTree sequence must have at least one node in it"
    else
      .ok (sequence, .warning msg, items)
  | .openParen =>
    if sequence.isEmpty then
      .error "parse: the GameTree sequence must have at least one node in it"
    else
      .ok (sequence, .openParen, items)
  | .closeParen =>
    if sequence.isEmpty then
      .error "parse: the GameTree sequence must have at least one node in it"
    else
      .ok (sequence, .closeParen, items)
  | .openBracket =>
    if sequence.isEmpty then
      .error "parse: the GameTree sequence must have at least one node in it"
    else
      .ok (sequence, .openBracket, items)
  | .closeBracket =>
    if sequence.isEmpty then
      .error "parse: the GameTree sequence must have at least one node in it"
    else
      .ok (sequence, .closeBracket, items)
  | .eofItem =>
    if sequence.isEmpty then
      .error "parse: the GameTree sequence must have at least one node in it"
    else
      .ok (sequence, .eofItem, items)
  | .propertyIdent v =>
    if sequence.isEmpty then
      .error "parse: the GameTree sequence must have at least one node in it"
    else
      .ok (sequence, .propertyIdent v, items)
  | .propertyValue v =>
    if sequence.isEmpty then
      .error "parse: the GameTree sequence must have at least one node in it"
    else
      .ok (sequence, .propertyValue v, items)
termination_by items.length
decreasing_by exact parseNode_len _ _ _ _ h

/-- Go `parseSequence`: reads the first item from the stream and runs the
node loop. -/
def parseSequence : List item → Except String (List Sgf.Node × item × List item)
  | [] => .error "parse: lexer channel closed unexpectedly"
  | it :: rest => parseSeqGo [] it rest

/-- Auxiliary strong induction for `parseSeqGo_len`. -/
theorem parseSeqGo_lenAux : ∀ (N : Nat) (items : List item), items.length ≤ N →
    ∀ (sequence it) {s it' rest},
    parseSeqGo sequence it items = .ok (s, it', rest) → rest.length ≤ items.length := by
  intro N
  induction N with
  | zero =>
    intro items hlen sequence it s it' rest h
    cases it <;> simp only [parseSeqGo] at h <;> (try split at h) <;>
      (try (cases h <;> omega))
    rename_i n it2 rest2 heq
    have h1 := parseNode_len _ _ _ _ heq
    omega
  | succ N ihN =>
    intro items hlen sequence it s it' rest h
    cases it <;> simp only [parseSeqGo] at h <;> (try split at h) <;>
      (try (cases h <;> omega))
    rename_i n it2 rest2 heq
    have h1 := parseNode_len _ _ _ _ heq
    have h2 := ihN _ (by omega) _ _ h
    omega

/-- The loop of `parseSeqGo` never lengthens the remaining stream. -/
theorem parseSeqGo_len {sequence it items s it' rest}
    (h : parseSeqGo sequence it items = .ok (s, it', rest)) : rest.length ≤ items.length :=
  parseSeqGo_lenAux items.length items (Nat.le_refl _) sequence it h

/-- `parseSequence` consumes at least one item. -/
theorem parseSequence_len : ∀ {items s it rest},
    parseSequence items = .ok (s, it, rest) → rest.length < items.length := by
  intro items s it rest h
  cases items with
  | nil => simp [parseSequence] at h
  | cons i tl =>
    have hle := parseSeqGo_len h
    simp only [List.length_cons]
    omega

end Parse

namespace Parse

mutual

/-- Go `parseGameTree`: parse one sequence, then subtrees until the
closing parenthesis.  Called with the items following the already
consumed `(`.  The returned stream is strictly shorter; the bound feeds
the termination argument for the nested recursion. -/
def parseGameTree (items : List item) :
    Except String (Sgf.GameTree × {r : List item // r.length < items.length}) :=
  match parseSequence items with
  | .error e => .error e
  | .ok (sequence, lastItem, rest) =>
    if hlt : rest.length < items.length then
      match parseGTLoop sequence [] lastItem rest with
      | .error e => .error e
      | .ok (gt, ⟨r, hr⟩) => .ok (gt, ⟨r, by omega⟩)
    else
      -- dead branch: `parseSequence_len` shows the guard always holds; the
      -- guard avoids a dependent match on the result of `parseSequence`
      .error "parse: lexer channel closed unexpectedly"
termination_by (items.length, 0)
decreasing_by exact Prod.Lex.left _ _ hlt

/-- The subtree loop of Go `parseGameTree`: `lastItem` is the item that
followed the sequence (or the previous subtree), `subtrees` the subtrees
parsed so far. -/
def parseGTLoop (sequence : List Sgf.Node) (subtrees : List Sgf.GameTree)
    (lastItem : item) (items : List item) :
    Except String (Sgf.GameTree × {r : List item // r.length ≤ items.length}) :=
  match lastItem with
  | .closeParen => .ok (.mk sequence subtrees, ⟨items, Nat.le_refl _⟩)
  | .openParen =>
    match parseGameTree items with
    | .error e => .error e
    | .ok (subtree, ⟨rest, hrest⟩) =>
      match rest with
      | [] => .error "parse: lexer channel closed unexpectedly"
      | it' :: rest' =>
        match parseGTLoop sequence (subtrees ++ [subtree]) it' rest' with
        | .error e => .error e
        | .ok (gt, ⟨r, hr⟩) =>
          .ok (gt, ⟨r, by simp only [List.length_cons] at hrest; omega⟩)
  | .error msg => .error msg
  -- the Go switch default, spelled out per constructor
  | .warning msg => .error ("parse: unexpected item: " ++ itemString (.warning msg))
  | .openBracket => .error ("parse: unexpected item: " ++ itemString .openBracket)
  | .closeBracket => .error ("parse: unexpected item: " ++ itemString .closeBracket)
  | .semiColon => .error ("parse: unexpected item: " ++ itemString .semiColon)
  | .eofItem => .error ("parse: unexpected item: " ++ itemString .eofItem)
  | .propertyIdent v => .error ("parse: unexpected item: " ++ itemString (.propertyIdent v))
  | .propertyValue v => .error ("parse: unexpected item: " ++ itemString (.propertyValue v))
termination_by (items.length, 1)
decreasing_by
  · exact Prod.Lex.right _ (by omega)
  · simp only [List.length_cons] at hrest
    exact Prod.Lex.left _ _ (by omega)

end

/-- `parseGameTree` with the length bound erased. -/
def parseGameTreeE (items : List item) : Except String (Sgf.GameTree × List item) :=
  match parseGameTree items with
  | .error e => .error e
  | .ok (gt, r) => .ok (gt, r.val)

/-- Go `parseCollection`: top level of the parse.  The collection of
completed top-level game trees is returned even when `err` is set (Go
returns both named results). -/
def parseCollection (collection : List Sgf.GameTree) (items : List item) :
    List Sgf.GameTree × Option String :=
  match items with
  | [] => (collection, some "parse: lexer channel closed unexpectedly")
  | .openParen :: rest =>
    match parseGameTree rest with
    | .error e => (collection, some e)
    | .ok (gt, ⟨rest', _⟩) => parseCollection (collection ++ [gt]) rest'
  | .eofItem :: _ => (collection, none)
  | .error msg :: _ => (collection, some msg)
  -- the Go switch default, spelled out per constructor
  | .closeParen :: _ => (collection, some "parse: only GameTrees are allowed at the top level")
  | .openBracket :: _ => (collection, some "parse: only GameTrees are allowed at the top level")
  | .closeBracket :: _ => (collection, some "parse: only GameTrees are allowed at the top level")
  | .semiColon :: _ => (collection, some "parse: only GameTrees are allowed at the top level")
  | .warning _ :: _ => (collection, some "parse: only GameTrees are allowed at the top level")
  | .propertyIdent _ :: _ => (collection, some "parse: only GameTrees are allowed at the top level")
  | .propertyValue _ :: _ => (collection, some "parse: only GameTrees are allowed at the top level")
termination_by items.length
decreasing_by
  rename_i hr
  simp only [List.length_cons]
  omega

/-- Go `bytes.Index`: the first index at which `pat` occurs in the list,
scanning left to right. -/
def indexOfSub (pat : List Char) : List Char → Option Nat
  | [] => if pat.isPrefixOf ([] : List Char) then some 0 else none
  | c :: rest =>
    if pat.isPrefixOf (c :: rest) then some 0
    else (indexOfSub pat rest).map (· + 1)

/-- Go `bytes.IndexByte`. -/
def indexOfChar (b : Char) : List Char → Option Nat
  | [] => none
  | c :: rest => if c = b then some 0 else (indexOfChar b rest).map (· + 1)

/-- ASCII lower-casing of one character. -/
def asciiToLower (c : Char) : Char :=
  if 'A' ≤ c ∧ c ≤ 'Z' then Char.ofNat (c.toNat + 32) else c

/-- Go `strings.EqualFold` restricted to the use in `Parse`, where one
side is the ASCII literal `"UTF-8"`.  Unicode simple case folding
coincides with ASCII case-insensitive comparison here because no rune
outside ASCII folds to `u`, `t`, `f`, `-` or `8`. -/
def asciiEqualFold (a b : List Char) : Bool :=
  a.map asciiToLower = b.map asciiToLower

/-- Go `Parse`: the encoding pre-pass (which only produces warnings; the
encoding name is not otherwise used), then the lexer and the tree
builder.  Returns the collection, the warnings and the error. -/
def Parse (data : List Char) : List Sgf.GameTree × List String × Option String :=
  let encodingName : List Char :=
    match indexOfSub "CA[".data data with
    | some keyI =>
      match indexOfChar ']' (data.drop (keyI + 3)) with
      | some closeI => (data.drop (keyI + 3)).take closeI
      | none => []
    | none => []
  let warnings : List String :=
    if encodingName = [] then ["Did not find a CA property. Assuming the UTF-8 encoding"]
    else []
  let encodingName := if encodingName = [] then "UTF-8".data else encodingName
  let warnings :=
    if !asciiEqualFold encodingName "UTF-8".data then
      warnings ++ ["The encoding specified in the CA property (" ++ String.mk encodingName ++
        ") is not currently supported. Going to try to use UTF-8 instead"]
    else warnings
  let result := parseCollection [] (lex data)
  (result.1, warnings, result.2)

end Parse

namespace Parse

/-- `parseGTLoop` with the length bound erased. -/
def parseGTLoopE (sequence : List Sgf.Node) (subtrees : List Sgf.GameTree)
    (lastItem : item) (items : List item) : Except String (Sgf.GameTree × List item) :=
  match parseGTLoop sequence subtrees lastItem items with
  | .error e => .error e
  | .ok (gt, r) => .ok (gt, r.val)

/-- Unfolding of `parseGameTreeE` in terms of the erased wrappers. -/
theorem parseGameTreeE_def (items : List item) :
    parseGameTreeE items =
      match parseSequence items with
      | .error e => .error e
      | .ok (sequence, lastItem, rest) => parseGTLoopE sequence [] lastItem rest := by
  unfold parseGameTreeE
  rw [parseGameTree]
  rcases hs : parseSequence items with e | ⟨sequence, lastItem, rest⟩
  · rfl
  · simp only
    rw [dif_pos (parseSequence_len hs)]
    unfold parseGTLoopE
    rcases h : parseGTLoop sequence [] lastItem rest with e | ⟨gt, r, hr⟩ <;> simp [h]

/-- Unfolding of `parseGTLoopE` in terms of the erased wrappers. -/
theorem parseGTLoopE_def (sequence : List Sgf.Node) (subtrees : List Sgf.GameTree)
    (lastItem : item) (items : List item) :
    parseGTLoopE sequence subtrees lastItem items =
      match lastItem with
      | .closeParen => .ok (.mk sequence subtrees, items)
      | .openParen =>
        match parseGameTreeE items with
        | .error e => .error e
        | .ok (subtree, rest) =>
          match rest with
          | [] => .error "parse: lexer channel closed unexpectedly"
          | it' :: rest' => parseGTLoopE sequence (subtrees ++ [subtree]) it' rest'
      | .error msg => .error msg
      | _ => .error ("parse: unexpected item: " ++ itemString lastItem) := by
  cases lastItem <;> (unfold parseGTLoopE; rw [parseGTLoop]) <;> (try rfl)
  unfold parseGameTreeE
  rcases h : parseGameTree items with e | ⟨st, rest, hrest⟩
  · simp
  · simp only
    cases rest with
    | nil => simp
    | cons it' rest' =>
      simp only
      rcases h2 : parseGTLoop sequence (subtrees ++ [st]) it' rest' with e2 | ⟨gt2, r2, hr2⟩ <;>
        simp [parseGTLoopE, h2]

/-- Unfolding of `parseCollection` through `parseGameTreeE`. -/
theorem parseCollection_open (collection : List Sgf.GameTree) (rest : List item) :
    parseCollection collection (.openParen :: rest) =
      match parseGameTreeE rest with
      | .error e => (collection, some e)
      | .ok (gt, rest') => parseCollection (collection ++ [gt]) rest' := by
  rw [parseCollection]
  unfold parseGameTreeE
  rcases h : parseGameTree rest with e | ⟨gt, r, hr⟩ <;> simp [h]

end Parse

namespace Sgf

/-- Splitting on a separator that does not occur keeps the list whole. -/
theorem splitOnCharAux_no_sep (sep : Char) :
    ∀ (s cur : List Char), (∀ c ∈ s, c ≠ sep) → splitOnCharAux sep cur s = [cur ++ s] := by
  intro s
  induction s with
  | nil => intro cur _; simp [splitOnCharAux]
  | cons c rest ih =>
    intro cur hno
    have hc : c ≠ sep := hno c (by simp)
    simp only [splitOnCharAux, if_neg hc]
    rw [ih (cur ++ [c]) (fun d hd => hno d (by simp [hd]))]
    simp

/-- `splitOnChar` of a colon-free list is the singleton of the list. -/
theorem splitOnChar_eq_single {s : List Char} {sep : Char} (h : ¬ sep ∈ s) :
    splitOnChar s sep = [s] := by
  unfold splitOnChar
  rw [splitOnCharAux_no_sep sep s [] (fun c hc heq => h (heq ▸ hc))]
  simp

/-- `splitOnListAux` always produces at least one field. -/
theorem splitOnListAux_ne_nil (sep : List Char) :
    ∀ (s : List Char) (cur : List Char) (skip : Nat), splitOnListAux sep cur skip s ≠ [] := by
  intro s
  induction s with
  | nil => intro cur skip; simp [splitOnListAux]
  | cons c rest ih =>
    intro cur skip
    cases skip with
    | succ k => simpa [splitOnListAux] using ih cur k
    | zero =>
      by_cases hp : sep.isPrefixOf (c :: rest) <;> simp [splitOnListAux, hp, ih]

/-- `splitOnList` always produces at least one field. -/
theorem splitOnList_ne_nil (s sep : List Char) : splitOnList s sep ≠ [] :=
  splitOnListAux_ne_nil sep s [] 0

/-- `altCheckParts` succeeds exactly when every part validates against
its atom. -/
theorem altCheckParts_none_iff :
    ∀ l : List (List Char × List Char),
      (altCheckParts l = none ↔ ∀ p ∈ l, validatePropertyValuePart p.1 p.2 = none) := by
  intro l
  induction l with
  | nil => simp [altCheckParts]
  | cons p rest ih =>
    cases hp : validatePropertyValuePart p.1 p.2 <;>
      simp [altCheckParts, hp, ih]

/-- The spec-side notion of one alternative fully validating a value: the
colon-split part count matches the alternative's atom count and every
part passes its atom. -/
def altFullyValidates (vnPart value : List Char) : Prop :=
  (splitOnList vnPart " : ".data).length = (splitOnChar value ':').length ∧
  ∀ p ∈ (splitOnList vnPart " : ".data).zip (splitOnChar value ':'),
    validatePropertyValuePart p.1 p.2 = none

/-- `altCheck` succeeds exactly when the alternative fully validates. -/
theorem altCheck_none_iff (vnPart value : List Char) :
    altCheck vnPart value = none ↔ altFullyValidates vnPart value := by
  unfold altCheck altFullyValidates
  by_cases hlen :
      (splitOnList vnPart " : ".data).length = (splitOnChar value ':').length
  · simp [hlen, altCheckParts_none_iff]
  · simp [hlen]

/-- A value validates exactly when some alternative of its grammar fully
validates it. -/
theorem validatePropertyValue_none_iff (pv : PropertyValue) :
    validatePropertyValue pv = none ↔
      ∃ alt ∈ splitOnList pv.validatorName.data " | ".data,
        altFullyValidates alt pv.value.data := by
  unfold validatePropertyValue
  rcases halts : splitOnList pv.validatorName.data " | ".data with _ | ⟨a0, arest⟩
  · exact absurd halts (splitOnList_ne_nil _ _)
  · simp only
    by_cases hall : ((a0 :: arest).map (fun vnPart => altCheck vnPart pv.value.data)).all Option.isSome
    · rw [if_pos hall]
      constructor
      · intro h
        rcases hh : altCheck a0 pv.value.data with _ | e0
        · have := List.all_eq_true.mp hall (altCheck a0 pv.value.data) (by simp)
          simp [hh] at this
        · simp [List.filterMap_cons, hh] at h
      · rintro ⟨alt, hmem, hfull⟩
        have := List.all_eq_true.mp hall (altCheck alt pv.value.data) (by
          simp only [List.mem_map]
          exact ⟨alt, hmem, rfl⟩)
        rw [(altCheck_none_iff alt pv.value.data).mpr hfull] at this
        simp at this
    · rw [if_neg hall]
      have hex : ∃ alt ∈ a0 :: arest, altCheck alt pv.value.data = none := by
        by_contra hno
        push_neg at hno
        apply hall
        rw [List.all_eq_true]
        intro x hx
        rw [List.mem_map] at hx
        obtain ⟨alt, hmem, rfl⟩ := hx
        rcases hh : altCheck alt pv.value.data with _ | e0
        · exact absurd hh (hno alt hmem)
        · simp
      simp only [true_iff]
      obtain ⟨alt, hmem, hnone⟩ := hex
      exact ⟨alt, hmem, (altCheck_none_iff alt pv.value.data).mp hnone⟩

/-- When validation fails, the reported failure is the first
alternative's failure. -/
theorem validatePropertyValue_some (pv : PropertyValue) (e : String)
    (h : validatePropertyValue pv = some e) :
    ∃ alt0 altRest, splitOnList pv.validatorName.data " | ".data = alt0 :: altRest ∧
      altCheck alt0 pv.value.data = some e := by
  unfold validatePropertyValue at h
  rcases halts : splitOnList pv.validatorName.data " | ".data with _ | ⟨a0, arest⟩
  · exact absurd halts (splitOnList_ne_nil _ _)
  · rw [halts] at h
    simp only at h
    by_cases hall : ((a0 :: arest).map (fun vnPart => altCheck vnPart pv.value.data)).all Option.isSome
    · rw [if_pos hall] at h
      have h0 := List.all_eq_true.mp hall (altCheck a0 pv.value.data) (by simp)
      rcases hh : altCheck a0 pv.value.data with _ | e0
      · simp [hh] at h0
      · refine ⟨a0, arest, rfl, ?_⟩
        simp only [List.map_cons, List.filterMap_cons, hh, List.head?] at h
        cases h
        exact hh
    · rw [if_neg hall] at h
      exact absurd h (by simp)

end Sgf

namespace Sgf

/-- Validation of a value whose grammar is the `"unknown"` placeholder
succeeds whenever its text has no colon (the single-atom alternative
must match the colon-split part count). -/
theorem validatePropertyValue_unknown (v : PropertyValue)
    (hvn : v.validatorName = "unknown") (hnc : ¬ ':' ∈ v.value.data) :
    validatePropertyValue v = none := by
  unfold validatePropertyValue
  rw [hvn]
  have h1 : splitOnList "unknown".data " | ".data = ["unknown".data] := by decide
  rw [h1]
  have h2 : altCheck "unknown".data v.value.data = none := by
    unfold altCheck
    have h3 : splitOnList "unknown".data " : ".data = ["unknown".data] := by decide
    rw [h3, splitOnChar_eq_single hnc]
    simp [altCheckParts, validatePropertyValuePart]
  simp [h2]

/-- Characterization of `Property.validatePropertyValues` within the
cardinality bound: invalid if any value fails, else deferred if any
value is deferred, else valid; an error is returned exactly when some
value fails. -/
theorem validatePropertyValues_char (p : Property)
    (hcard : ¬ (p.listiness = .notList ∧ p.values.length > 1)) :
    (p.validatePropertyValues.1.validated =
      if p.values.any valueFails then .invalid
      else if p.values.any valueDeferredB then .validationDeferred
      else .valid) ∧
    (p.validatePropertyValues.2.isSome ↔ p.values.any valueFails = true) := by
  unfold Property.validatePropertyValues
  rw [if_neg hcard]
  rcases hh : (p.values.filterMap valueErr).head? with _ | e
  · rw [List.head?_eq_none_iff, List.filterMap_eq_nil_iff] at hh
    have hnofail : p.values.any valueFails = false := by
      rw [List.any_eq_false]
      intro v hv
      unfold valueFails
      rw [hh v hv]
      simp
    simp [hnofail]
  · have hsome : p.values.any valueFails = true := by
      have hmem : e ∈ p.values.filterMap valueErr := by
        rcases hm : p.values.filterMap valueErr with _ | ⟨e0, rest⟩
        · rw [hm] at hh; simp at hh
        · rw [hm] at hh
          simp only [List.head?] at hh
          cases hh
          simp
      rw [List.mem_filterMap] at hmem
      obtain ⟨v, hv, hfv⟩ := hmem
      rw [List.any_eq_true]
      exact ⟨v, hv, by unfold valueFails; rw [hfv]; rfl⟩
    simp [hsome]

/-- `validatePropertyValues` only changes the `validated` field. -/
theorem validatePropertyValues_fields (p : Property) :
    ∃ st, p.validatePropertyValues.1 = { p with validated := st } := by
  unfold Property.validatePropertyValues
  split
  · exact ⟨.invalid, rfl⟩
  · rcases hh : (p.values.filterMap valueErr).head? with _ | e <;> simp [hh]

end Sgf

open Sgf Parse

/-- C3 counterexample: the identity "ZZ" is absent from the registry, yet
a property built from it with the colon-containing value "a:b" validates
as Invalid (the composition arity check rejects the colon split), with a
validation error raised. -/
theorem c3_counterexample :
    propertyTypeMap "ZZ" = none ∧
    (NewProperty "ZZ" [⟨"a:b", "unknown"⟩]).1.validated = .invalid ∧
    (NewProperty "ZZ" [⟨"a:b", "unknown"⟩]).2 = some "not enough parts in composition" := by
  refine ⟨by decide, by decide, by decide⟩

/-- C3 amended: for an identity absent from the registry, validation of a
property always succeeds with status Valid for any values carrying the
"unknown" grammar placeholder whose text contains no colon; colon-bearing
text is rejected by the composition arity check. -/
theorem c3_amended (identity : String) (values : List PropertyValue)
    (habs : propertyTypeMap identity = none)
    (hvn : ∀ v ∈ values, v.validatorName = "unknown")
    (hnc : ∀ v ∈ values, ¬ ':' ∈ v.value.data) :
    (NewProperty identity values).1.validated = .valid ∧
    (NewProperty identity values).2 = none := by
  unfold NewProperty
  rw [habs]
  simp only
  have hcard : ¬ ((propertyListiness.unknownList : propertyListiness) = .notList ∧ values.length > 1) := by
    intro hc
    exact absurd hc.1 (by decide)
  unfold Property.validatePropertyValues
  rw [if_neg hcard]
  have herrs : values.filterMap valueErr = [] := by
    rw [List.filterMap_eq_nil_iff]
    intro v hv
    unfold valueErr
    rw [validatePropertyValue_unknown v (hvn v hv) (hnc v hv)]
  have hdef : values.any valueDeferredB = false := by
    rw [List.any_eq_false]
    intro v hv
    unfold valueDeferredB
    rw [validatePropertyValue_unknown v (hvn v hv) (hnc v hv)]
    simp
  rw [herrs]
  simp [hdef]

/-- C3 amended, witnessed at the concrete unknown identity "ZZ" with the
colon-free value "hello". -/
theorem c3_amended_witness :
    propertyTypeMap "ZZ" = none ∧
    (NewProperty "ZZ" [⟨"hello", "unknown"⟩]).1.validated = .valid ∧
    (NewProperty "ZZ" [⟨"hello", "unknown"⟩]).2 = none := by
  refine ⟨by decide, ?_⟩
  have h := c3_amended "ZZ" [⟨"hello", "unknown"⟩] (by decide)
    (by intro v hv; simp at hv; rw [hv]) (by intro v hv; simp at hv; rw [hv]; decide)
  exact h

/-- C5: the `real` atom accepts "1x5" — the dot in the Go regular
expression `^[\+-]?\d+(.\d+)?$` is unescaped, so any character other than
a newline is accepted between the digit runs, contradicting the claim
that only a literal '.' is allowed. -/
theorem c5_real_accepts_nondot :
    validatePropertyValuePart "real".data "1x5".data = none ∧
    validatePropertyValuePart "real".data "1.5".data = none ∧
    validatePropertyValuePart "real".data "15".data = none := by
  refine ⟨by decide, by decide, by decide⟩

/-- C6: a value is valid exactly when some ` | `-alternative fully
validates it; on failure the first alternative's failure is reported;
and the three SZ examples behave as specified. -/
theorem c6_theorem :
    (∀ pv : PropertyValue,
      (validatePropertyValue pv = none ↔
        ∃ alt ∈ splitOnList pv.validatorName.data " | ".data,
          altFullyValidates alt pv.value.data) ∧
      (∀ e, validatePropertyValue pv = some e →
        ∃ alt0 altRest, splitOnList pv.validatorName.data " | ".data = alt0 :: altRest ∧
          altCheck alt0 pv.value.data = some e)) ∧
    (NewProperty "SZ" [⟨"19", "unknown"⟩]).1.validated = .valid ∧
    (NewProperty "SZ" [⟨"19:19", "unknown"⟩]).1.validated = .valid ∧
    (NewProperty "SZ" [⟨"abc", "unknown"⟩]).1.validated = .invalid :=
  ⟨fun pv => ⟨validatePropertyValue_none_iff pv,
    fun e he => validatePropertyValue_some pv e he⟩,
   by decide, by decide, by decide⟩

/-- C6 witness: the first-failure clause applied at the SZ grammar and
the value "abc", whose reported failure is the number alternative's. -/
theorem c6_witness :
    ∃ alt0 altRest,
      splitOnList (PropertyValue.mk "abc" "number | number : number").validatorName.data
        " | ".data = alt0 :: altRest ∧
      altCheck alt0 (PropertyValue.mk "abc" "number | number : number").value.data =
        some "Number type Property Value expected positive or negative integer" :=
  (c6_theorem.1 ⟨"abc", "number | number : number"⟩).2
    "Number type Property Value expected positive or negative integer" (by decide)

/-- C7 counterexample: a "B" property holding the single non-empty value
"a:b" validates as Invalid (the colon split has two parts against the
one-atom `move` grammar), not ValidationDeferred. -/
theorem c7_counterexample :
    (NewProperty "B" [⟨"a:b", "unknown"⟩]).1.validated = .invalid ∧
    (NewProperty "B" [⟨"a:b", "unknown"⟩]).1.validated ≠ .validationDeferred :=
  ⟨by decide, by decide⟩

/-- Validation of a value against the `move` grammar defers for any
colon-free text. -/
theorem validatePropertyValue_move (w : String) (hnc : ¬ ':' ∈ w.data) :
    validatePropertyValue ⟨w, "move"⟩ =
      some "validation deferred: must be validated in the context of the full SGF structure" := by
  unfold validatePropertyValue
  simp only
  have h1 : splitOnList "move".data " | ".data = ["move".data] := by decide
  rw [h1]
  have h2 : altCheck "move".data w.data =
      some "validation deferred: must be validated in the context of the full SGF structure" := by
    unfold altCheck
    have h3 : splitOnList "move".data " : ".data = ["move".data] := by decide
    rw [h3, splitOnChar_eq_single hnc]
    simp only [List.length_cons, List.length_nil, List.zip_cons_cons, List.zip_nil_right,
      if_neg, altCheckParts]
    have h4 : validatePropertyValuePart "move".data w.data =
        some "validation deferred: must be validated in the context of the full SGF structure" := by
      unfold validatePropertyValuePart
      rw [if_neg (by decide), if_neg (by decide), if_neg (by decide), if_neg (by decide),
        if_neg (by decide), if_neg (by decide), if_neg (by decide), if_pos (by decide)]
    simp [h4]
  simp [h2]

/-- C7 amended: re-validation computes Invalid if any value fails,
else Deferred if any value defers, else Valid (within the cardinality
bound), and a "B" property with a single non-empty colon-free value is
always Deferred; a colon in the value makes it Invalid instead. -/
theorem c7_amended :
    (∀ p : Property, ¬ (p.listiness = .notList ∧ p.values.length > 1) →
      p.validatePropertyValues.1.validated =
        if p.values.any valueFails then .invalid
        else if p.values.any valueDeferredB then .validationDeferred
        else .valid) ∧
    (∀ v : String, v.data ≠ [] → ¬ ':' ∈ v.data →
      (NewProperty "B" [⟨v, "unknown"⟩]).1.validated = .validationDeferred) := by
  constructor
  · intro p hcard
    exact (validatePropertyValues_char p hcard).1
  · intro v hne hnc
    unfold NewProperty
    have hB : propertyTypeMap "B" = some ⟨"Black", .move, "move", .notList⟩ := by decide
    rw [hB]
    simp only [List.map_cons, List.map_nil]
    set p0 : Property :=
      { identity := "B"
        values := [⟨v, "move"⟩]
        validated := .notValidated
        type := .move
        description := "Black"
        validatorName := "move"
        listiness := .notList } with hp0
    have hcard : ¬ (p0.listiness = .notList ∧ p0.values.length > 1) := by
      intro hc
      simp [hp0] at hc
    have hchar := (validatePropertyValues_char p0 hcard).1
    have hfail : p0.values.any valueFails = false := by
      simp only [hp0, List.any_cons, List.any_nil]
      unfold valueFails valueErr
      rw [validatePropertyValue_move v hnc]
      simp [isDeferredErr]
    have hdefer : p0.values.any valueDeferredB = true := by
      simp only [hp0, List.any_cons, List.any_nil]
      unfold valueDeferredB
      rw [validatePropertyValue_move v hnc]
      simp [isDeferredErr]
    rw [hchar, hfail, hdefer]
    simp

/-- C7 amended witness: instantiated at the non-empty colon-free value
"aa" (and, for the general clause, at the same "B" property). -/
theorem c7_amended_witness :
    (NewProperty "B" [⟨"aa", "unknown"⟩]).1.validated = .validationDeferred :=
  c7_amended.2 "aa" (by decide) (by decide)

/-- Folding string concatenation from an arbitrary accumulator. -/
theorem stringFoldl_acc (l : List String) :
    ∀ a, l.foldl (fun r s => r ++ s) a = a ++ l.foldl (fun r s => r ++ s) "" := by
  induction l with
  | nil => intro a; simp
  | cons s rest ih =>
    intro a
    simp only [List.foldl_cons]
    rw [ih (a ++ s), ih ("" ++ s)]
    simp [String.append_assoc]

/-- Concatenation distributes over `String.join`. -/
theorem stringJoin_append (l1 l2 : List String) :
    String.join (l1 ++ l2) = String.join l1 ++ String.join l2 := by
  unfold String.join
  rw [List.foldl_append, stringFoldl_acc l2]

/-- C10: adding a value to a full not-a-list property reports an error
and marks the property Invalid, but the rejected value is nevertheless
appended to the value sequence and appears in the serialization. -/
theorem c10_theorem (p : Property) (pv : PropertyValue)
    (hl : p.listiness = .notList) (hone : p.values.length = 1) :
    (p.AddValue pv).2 = some ("Property " ++ p.identity ++ " can only have one value") ∧
    (p.AddValue pv).1.validated = .invalid ∧
    (p.AddValue pv).1.values =
      p.values ++
        [if pv.validatorName = "unknown" then { pv with validatorName := p.validatorName }
         else pv] ∧
    (p.AddValue pv).1.toString = p.toString ++ "[" ++ pv.value ++ "]" := by
  unfold Property.AddValue Property.validatePropertyValues
  rw [if_pos (by simp [hl, hone])]
  refine ⟨rfl, rfl, rfl, ?_⟩
  unfold Property.toString
  simp only [List.map_append, List.map_cons, List.map_nil]
  rw [stringJoin_append]
  have hv : PropertyValue.toString
      (if pv.validatorName = "unknown" then { pv with validatorName := p.validatorName }
       else pv) = "[" ++ pv.value ++ "]" := by
    unfold PropertyValue.toString
    split <;> rfl
  simp [String.join, hv, String.append_assoc]

/-- C10 witness: a "C" (Comment, not-a-list) property holding one value,
to which a second value "y" is added. -/
theorem c10_witness :
    ((NewProperty "C" [⟨"x", "unknown"⟩]).1.listiness = propertyListiness.notList ∧
      (NewProperty "C" [⟨"x", "unknown"⟩]).1.values.length = 1) ∧
    ((NewProperty "C" [⟨"x", "unknown"⟩]).1.AddValue ⟨"y", "unknown"⟩).2 =
      some "Property C can only have one value" ∧
    ((NewProperty "C" [⟨"x", "unknown"⟩]).1.AddValue ⟨"y", "unknown"⟩).1.validated = .invalid ∧
    ((NewProperty "C" [⟨"x", "unknown"⟩]).1.AddValue ⟨"y", "unknown"⟩).1.values =
      (NewProperty "C" [⟨"x", "unknown"⟩]).1.values ++
        [if (PropertyValue.mk "y" "unknown").validatorName = "unknown" then
          { PropertyValue.mk "y" "unknown" with
              validatorName := (NewProperty "C" [⟨"x", "unknown"⟩]).1.validatorName }
         else PropertyValue.mk "y" "unknown"] ∧
    ((NewProperty "C" [⟨"x", "unknown"⟩]).1.AddValue ⟨"y", "unknown"⟩).1.toString =
      (NewProperty "C" [⟨"x", "unknown"⟩]).1.toString ++ "[" ++ "y" ++ "]" :=
  ⟨⟨by decide, by decide⟩, c10_theorem (NewProperty "C" [⟨"x", "unknown"⟩]).1 ⟨"y", "unknown"⟩
    (by decide) (by decide)⟩

/-- `parseGTLoopE` at a closing parenthesis: the tree is complete. -/
theorem parseGTLoopE_close (sequence : List Sgf.Node) (subtrees : List Sgf.GameTree)
    (items : List Parse.item) :
    parseGTLoopE sequence subtrees .closeParen items = .ok (.mk sequence subtrees, items) := by
  rw [parseGTLoopE_def]

/-- `parseGTLoopE` at an opening parenthesis: parse a subtree and
continue the loop behind it. -/
theorem parseGTLoopE_open (sequence : List Sgf.Node) (subtrees : List Sgf.GameTree)
    (items : List Parse.item) :
    parseGTLoopE sequence subtrees .openParen items =
      match parseGameTreeE items with
      | .error e => .error e
      | .ok (subtree, rest) =>
        match rest with
        | [] => .error "parse: lexer channel closed unexpectedly"
        | it' :: rest' => parseGTLoopE sequence (subtrees ++ [subtree]) it' rest' := by
  rw [parseGTLoopE_def]

/-- Stepping lemma for `parseSeqGo`: a known node parse advances the
sequence loop. -/
theorem parseSeqGo_semi (sequence : List Sgf.Node) (items : List Parse.item)
    (n : Sgf.Node) (it' : Parse.item) (rest : List Parse.item)
    (h : parseNode [] none none items = .ok (n, it', rest)) :
    parseSeqGo sequence .semiColon items = parseSeqGo (sequence ++ [n]) it' rest := by
  rw [parseSeqGo]
  split
  · rename_i e he
    rw [he] at h
    cases h
  · rename_i n2 it2 rest2 heq
    rw [heq] at h
    cases h
    rfl

/-- Stepping lemma for `parseSeqGo`: a failing node parse fails the
sequence. -/
theorem parseSeqGo_semi_err (sequence : List Sgf.Node) (items : List Parse.item)
    (e : String) (h : parseNode [] none none items = .error e) :
    parseSeqGo sequence .semiColon items = .error e := by
  rw [parseSeqGo]
  split
  · rename_i e2 he
    rw [he] at h
    cases h
    rfl
  · rename_i n2 it2 rest2 heq
    rw [heq] at h
    cases h

/-- C8: parsing "()" and "  (  )  " both fail with the same fatal
empty-sequence error, and neither returns any GameTree. -/
theorem c8_theorem :
    Parse.Parse "()".data =
      ([], ["Did not find a CA property. Assuming the UTF-8 encoding"],
        some "parse: the GameTree sequence must have at least one node in it") ∧
    Parse.Parse "  (  )  ".data =
      ([], ["Did not find a CA property. Assuming the UTF-8 encoding"],
        some "parse: the GameTree sequence must have at least one node in it") := by
  constructor
  · have hlex : lex "()".data = [.openParen, .closeParen, .eofItem] := by decide
    simp [Parse.Parse, hlex, parseCollection_open, parseGameTreeE_def, parseSequence,
      parseSeqGo, parseNode, parseCollection]
    decide
  · have hlex : lex "  (  )  ".data = [.openParen, .closeParen, .eofItem] := by decide
    simp [Parse.Parse, hlex, parseCollection_open, parseGameTreeE_def, parseSequence,
      parseSeqGo, parseNode, parseCollection]
    decide

/-- C2: on the input "(;DEF[])" the tokenizer emits a non-fatal warning
token for the wide identifier and then the identifier itself, but the
tree builder has no case for warning items and aborts the whole parse
with an unexpected-item error wrapping the warning text, returning no
tree and recording no warning beyond the encoding pre-pass notice. -/
theorem c2_theorem :
    lex "(;DEF[])".data =
      [.openParen, .semiColon, .warning "lex: Found PropertyIdent wider than 2 characters",
       .propertyIdent "DEF".data, .openBracket, .propertyValue [], .closeBracket,
       .closeParen, .eofItem] ∧
    Parse.Parse "(;DEF[])".data =
      ([], ["Did not find a CA property. Assuming the UTF-8 encoding"],
        some "parse: unexpected item: lex: Found PropertyIdent wider than 2 characters") := by
  constructor
  · decide
  · have hlex : lex "(;DEF[])".data =
        [.openParen, .semiColon, .warning "lex: Found PropertyIdent wider than 2 characters",
         .propertyIdent "DEF".data, .openBracket, .propertyValue [], .closeBracket,
         .closeParen, .eofItem] := by decide
    simp [Parse.Parse, hlex, parseCollection_open, parseGameTreeE_def, parseSequence,
      parseSeqGo, parseNode, itemString, parseCollection]
    decide

/-- The property built by the parser for `A[]` (an identity absent from
the registry, holding one empty value). -/
def propAEmpty : Property :=
  { type := .unknown
    identity := "A"
    values := [⟨"", "unknown"⟩]
    description := "unknown"
    validated := .valid
    validatorName := "unknown"
    listiness := .unknownList }

/-- The property built by `NewProperty "A" []` before its value is
attached. -/
def propA0 : Property :=
  { type := .unknown
    identity := "A"
    values := []
    description := "unknown"
    validated := .valid
    validatorName := "unknown"
    listiness := .unknownList }

/-- The token stream of "(;A[])(" after the leading parenthesis. -/
def c4Items : List Parse.item :=
  [.semiColon, .propertyIdent ['A'], .openBracket, .propertyValue [], .closeBracket,
   .closeParen, .openParen, .error "lex: unexpected EOF; expected GameTree contents or ')'"]

/-- The first tree of "(;A[])(" is parsed completely. -/
theorem c4_firstTree :
    parseGameTreeE c4Items =
      .ok (.mk [⟨[propAEmpty]⟩] [],
        [.openParen, .error "lex: unexpected EOF; expected GameTree contents or ')'"]) := by
  have hnp : Sgf.NewProperty "A" [] = (propA0, none) := by decide
  have haddv : Sgf.Property.AddValue propA0
      (Sgf.NewEmptyPropertyValue.SetValue "") = (propAEmpty, none) := by decide
  have hpn : parseNode [] none none c4Items.tail =
      .ok (⟨[propAEmpty]⟩, .closeParen,
        [.openParen, .error "lex: unexpected EOF; expected GameTree contents or ')'"]) := by
    simp [c4Items, parseNode, hnp, haddv, Sgf.Node.AddProperty]
  have hseq : parseSequence c4Items =
      .ok ([⟨[propAEmpty]⟩], .closeParen,
        [.openParen, .error "lex: unexpected EOF; expected GameTree contents or ')'"]) := by
    have h0 : parseSequence c4Items = parseSeqGo [] .semiColon c4Items.tail := by
      simp [c4Items, parseSequence]
    rw [h0, parseSeqGo_semi [] _ _ _ _ hpn]
    simp [parseSeqGo]
  rw [parseGameTreeE_def, hseq]
  exact parseGTLoopE_close _ _ _

/-- C4 counterexample: on the input "(;A[])(" the parse fails (the second
tree is unterminated), yet the returned collection still contains the
complete first GameTree, contradicting "no partial tree". -/
theorem c4_counterexample :
    (Parse.Parse "(;A[])(".data).2.2.isSome ∧ (Parse.Parse "(;A[])(".data).1 ≠ [] := by
  have hlex : lex "(;A[])(".data = .openParen :: c4Items := by decide
  have hfail : parseGameTreeE [.openParen,
      .error "lex: unexpected EOF; expected GameTree contents or ')'"].tail =
      .error "lex: unexpected EOF; expected GameTree contents or ')'" := by
    rw [parseGameTreeE_def]
    simp [parseSequence, parseSeqGo]
  simp only [Parse.Parse, hlex, parseCollection_open, c4_firstTree]
  simp only [List.tail_cons] at hfail
  rw [hfail]
  simp

/-- C4 amended: a failed parse returns the single terminating error
describing the first fatal condition together with the top-level
GameTrees completed before it — possibly a non-empty collection; the
tree being parsed when the failure occurs is not included.  At the
input "(;A[])(" the completed first tree is returned alongside the
error. -/
theorem c4_amended :
    Parse.Parse "(;A[])(".data =
      ([.mk [⟨[propAEmpty]⟩] []],
        ["Did not find a CA property. Assuming the UTF-8 encoding"],
        some "lex: unexpected EOF; expected GameTree contents or ')'") := by
  have hlex : lex "(;A[])(".data = .openParen :: c4Items := by decide
  have hfail : parseGameTreeE ([.openParen,
      .error "lex: unexpected EOF; expected GameTree contents or ')'"] : List Parse.item).tail =
      .error "lex: unexpected EOF; expected GameTree contents or ')'" := by
    rw [parseGameTreeE_def]
    simp [parseSequence, parseSeqGo]
  simp only [Parse.Parse, hlex, parseCollection_open, c4_firstTree]
  simp only [List.tail_cons] at hfail
  rw [hfail]
  simp
  decide

namespace Parse

/-- An identifier consists of uppercase ASCII letters (`[A-Z]*`). -/
def identOkB (v : List Char) : Bool :=
  v.all (fun c => 'A' ≤ c ∧ c ≤ 'Z')

/-- The pending identifier characters of a lexer state. -/
def accOf : stateFn → List Char
  | .lexIdent acc => acc
  | .lexBytes => []
  | .lexTree => []
  | .lexValue _ _ => []
  | .lexAfterValue => []

/-- Every property-identifier item the lexer emits consists of uppercase
ASCII letters only, provided the pending identifier does. -/
theorem run_ident_upper : ∀ (input : List Char) (st : stateFn) (treeDepth : Nat),
    identOkB (accOf st) = true →
    ∀ v, item.propertyIdent v ∈ run st treeDepth input → identOkB v = true := by
  intro input
  induction input with
  | nil =>
    intro st d hst v hmem
    cases st <;> simp [run] at hmem
  | cons c rest ih =>
    intro st d hst v hmem
    cases st <;> simp only [run] at hmem <;> split_ifs at hmem <;>
      first
      | (simp at hmem; done)
      | (simp only [List.mem_cons] at hmem
         rcases hmem with h | hmem
         · cases h
         · first
           | (refine ih _ _ ?_ v hmem
              simp [accOf, identOkB]
              done)
           | (rcases hmem with h2 | hmem
              · cases h2
              · refine ih _ _ ?_ v hmem
                simp [accOf, identOkB]
                done))
      | (refine ih _ _ ?_ v hmem
         simp [accOf, identOkB]
         done)
      | (refine ih _ _ ?_ v hmem
         rename_i hbound
         push_neg at hbound
         simp only [not_lt] at hbound
         simp only [accOf, identOkB, List.all_append, List.all_cons, List.all_nil,
           Bool.and_true, List.all_eq_true, decide_eq_true_eq] at hst ⊢
         first
         | exact ⟨hst, hbound.1, hbound.2⟩
         | exact ⟨hbound.1, hbound.2⟩)
      | skip
    -- remaining: the branches that emit a property-identifier item, and
    -- the start of an identifier after a value
    all_goals
      first
      | (rename_i hbound
         refine ih _ _ ?_ v hmem
         push_neg at hbound
         try simp only [not_lt] at hbound
         simp only [accOf] at hst ⊢
         first
         | (simp [identOkB, hbound.1, hbound.2]
            done)
         | (simp only [identOkB, List.all_append, List.all_cons, List.all_nil] at hst ⊢
            simp only [List.all_eq_true, decide_eq_true_eq] at hst
            simp [hst, hbound.1, hbound.2]
            try exact fun x hx => hst x hx))
      | (simp only [List.singleton_append, List.nil_append, List.mem_cons] at hmem
         rcases hmem with h | hmem
         · first
           | (injection h with h2
              subst h2
              first
              | simpa [accOf] using hst
              | rfl)
           | cases h
         · rcases hmem with h2 | hmem
           · first
             | (injection h2 with h3
                subst h3
                first
                | simpa [accOf] using hst
                | rfl)
             | cases h2
           · first
             | (refine ih _ _ ?_ v hmem
                simp [accOf, identOkB]
                done)
             | (rcases hmem with h3 | hmem
                · cases h3
                · refine ih _ _ ?_ v hmem
                  simp [accOf, identOkB]))

end Parse

/-- C9 counterexample: on the input "(;[x])" the tokenizer emits an
empty property-identifier token (the identifier run may terminate at `[`
after zero characters), so identifier tokens do not match `[A-Z]+`. -/
theorem c9_counterexample :
    Parse.item.propertyIdent [] ∈ lex "(;[x])".data ∧
    lex "(;[x])".data =
      [.openParen, .semiColon, .propertyIdent [], .openBracket, .propertyValue ['x'],
       .closeBracket, .closeParen, .eofItem] := ⟨by decide, by decide⟩

/-- C9 amended: every property-identifier token emitted by the tokenizer
matches `[A-Z]*` — possibly empty, emitted when `[` immediately follows
the start of the identifier run; any character outside A-Z in an
identifier run other than the terminating `[` (and other than a `;`
before any identifier character, whitespace before the run, and the
end-of-input byte) produces the fatal upper-case error instead of an
identifier token. -/
theorem c9_amended :
    (∀ (input : List Char) (v : List Char),
      Parse.item.propertyIdent v ∈ lex input → identOkB v = true) ∧
    (∀ (treeDepth : Nat) (rest : List Char),
      run (.lexIdent []) treeDepth ('[' :: rest) =
        .propertyIdent [] :: .openBracket :: run (.lexValue [] false) treeDepth rest) ∧
    (∀ (acc : List Char) (treeDepth : Nat) (c : Char) (rest : List Char),
      ¬ (acc = [] ∧ whitespaceChar c = true) → c ≠ Parse.eofChar → c ≠ ';' → c ≠ '[' →
      (c < 'A' ∨ 'Z' < c) →
      run (.lexIdent acc) treeDepth (c :: rest) =
        [.error "lex: PropertyIdent must be upper-case letters"]) := by
  refine ⟨?_, ?_, ?_⟩
  · intro input v hmem
    exact run_ident_upper input .lexBytes 0 (by simp [accOf, identOkB]) v hmem
  · intro d rest
    rfl
  · intro acc d c rest h1 h2 h3 h4 h5
    simp only [run, if_neg h1, if_neg h2, if_neg h3, if_neg h4, if_pos h5]

/-- C9 amended witness: the identifier "AB" lexed from "(;AB[x])" is all
uppercase, and the character '(' in an identifier run is fatal. -/
theorem c9_amended_witness :
    identOkB "AB".data = true ∧
    run (.lexIdent []) 1 "(".data = [.error "lex: PropertyIdent must be upper-case letters"] :=
  ⟨c9_amended.1 "(;AB[x])".data "AB".data (by decide),
   c9_amended.2.2 [] 1 '(' [] (by decide) (by decide) (by decide) (by decide) (by decide)⟩

namespace Parse

mutual

/-- A value text is escape-closed: scanning it with the lexer's value
loop consumes it entirely — no unescaped `]`, no bare NUL byte, and no
trailing unmatched backslash.  These are exactly the texts the value
loop emits as `propertyValue` items, and they re-scan to themselves up
to a final unescaped `]`. -/
def valueOkB : List Char → Bool
  | [] => true
  | c :: rest =>
    if c = '\\' then valueTailOkB rest
    else decide (c ≠ ']') && decide (c.toNat ≠ 0) && valueOkB rest

/-- Continuation of `valueOkB` after a backslash. -/
def valueTailOkB : List Char → Bool
  | [] => false
  | _ :: rest2 => valueOkB rest2

end

/-- Escape-closed values are closed under concatenation. -/
theorem valueOkB_append : ∀ (N : Nat) (a : List Char), a.length ≤ N →
    ∀ b, valueOkB a = true → valueOkB b = true → valueOkB (a ++ b) = true := by
  intro N
  induction N with
  | zero =>
    intro a ha b h1 h2
    cases a with
    | nil => simpa using h2
    | cons c rest => simp at ha
  | succ N ih =>
    intro a ha b h1 h2
    cases a with
    | nil => simpa using h2
    | cons c rest =>
      by_cases hc : c = '\\'
      · subst hc
        cases rest with
        | nil => simp [valueOkB, valueTailOkB] at h1
        | cons c2 rest2 =>
          simp only [valueOkB, valueTailOkB, if_pos rfl] at h1
          simp only [List.cons_append, valueOkB, valueTailOkB, if_pos rfl]
          exact ih rest2 (by simp at ha; omega) b h1 h2
      · simp only [valueOkB, if_neg hc, Bool.and_eq_true] at h1
        simp only [List.cons_append, valueOkB, if_neg hc, Bool.and_eq_true]
        exact ⟨⟨h1.1.1, h1.1.2⟩, ih rest (by simp at ha; omega) b h1.2 h2⟩

end Parse

namespace Sgf

/-- The property a parse run constructs for one `IDENT[raw]` group: a
fresh property for the identity, then one attached value (which is how
`parseNode` builds every property). -/
def mkPropE (identity : String) (raw : String) : Except String Property :=
  match NewProperty identity [] with
  | (_, some e) => .error e
  | (p0, none) =>
    match p0.AddValue ⟨raw, "unknown"⟩ with
    | (_, some e) => .error e
    | (p', none) => .ok p'

/-- The raw text of a single-value property. -/
def rawOf (p : Property) : List Char :=
  match p.values with
  | [] => []
  | [pv] => pv.value.data
  | _ :: _ :: _ => []

/-- A property as the parser produces it: exactly one value, an
uppercase identity of at most two characters (wider ones abort the
parse via the warning token), an escape-closed value text, and the
whole record reproducible by `mkPropE` from identity and raw text. -/
def wfPropertyB (p : Property) : Bool :=
  match p.values with
  | [] => false
  | [pv] =>
    Parse.identOkB p.identity.data && decide (p.identity.data.length ≤ 2) &&
      Parse.valueOkB pv.value.data &&
      (match mkPropE p.identity pv.value with
       | .ok q => decide (q = p)
       | .error _ => false)
  | _ :: _ :: _ => false

/-- Pairwise distinct property identities. -/
def distinctIdents : List Property → Bool
  | [] => true
  | p :: rest => rest.all (fun q => p.identity != q.identity) && distinctIdents rest

/-- A node as the parser produces it. -/
def wfNodeB (n : Node) : Bool :=
  distinctIdents n.properties && n.properties.all wfPropertyB

/-- The last node of a sequence carries at least one property (an empty
node can only be followed by another node: after its `;` the lexer
accepts only an identifier run or another `;`). -/
def lastNodeOk : List Node → Bool
  | [] => false
  | [n] => !n.properties.isEmpty
  | _ :: n2 :: rest => lastNodeOk (n2 :: rest)

/-- A sequence as the parser produces it: non-empty, well-formed nodes,
last node non-empty. -/
def wfSeqB (seq : List Node) : Bool :=
  !seq.isEmpty && seq.all wfNodeB && lastNodeOk seq

mutual

/-- A game tree as the parser produces it. -/
def wfTreeB : GameTree → Bool
  | .mk seq subs => wfSeqB seq && wfForestB subs

/-- A list of game trees as the parser produces them. -/
def wfForestB : List GameTree → Bool
  | [] => true
  | gt :: rest => wfTreeB gt && wfForestB rest

end

/-- Induction over a game tree with the hypothesis available for every
subtree. -/
theorem GameTree.inductionOn (motive : GameTree → Prop)
    (h : ∀ seq subs, (∀ g ∈ subs, motive g) → motive (GameTree.mk seq subs)) :
    ∀ gt, motive gt := by
  have key : ∀ n (g : GameTree), sizeOf g ≤ n → motive g := by
    intro n
    induction n with
    | zero =>
      intro g hg
      cases g
      simp at hg
    | succ n ih =>
      intro g hg
      cases g with
      | mk seq subs =>
        apply h
        intro g' hg'
        apply ih
        have hlt := List.sizeOf_lt_of_mem hg'
        simp only [GameTree.mk.sizeOf_spec] at hg
        omega
  intro g
  exact key (sizeOf g) g (Nat.le_refl _)

end Sgf

namespace Parse

/-- The canonical token group of a parsed property. -/
def propItems (p : Sgf.Property) : List item :=
  [.propertyIdent p.identity.data, .openBracket, .propertyValue (Sgf.rawOf p), .closeBracket]

/-- The canonical token stream of a parsed node. -/
def nodeItems (n : Sgf.Node) : List item :=
  .semiColon :: n.properties.flatMap propItems

mutual

/-- The canonical token stream of a parsed game tree. -/
def treeItems : Sgf.GameTree → List item
  | .mk seq subs => .openParen :: (seq.flatMap nodeItems ++ forestItems subs ++ [.closeParen])

/-- The canonical token stream of a list of game trees. -/
def forestItems : List Sgf.GameTree → List item
  | [] => []
  | gt :: rest => treeItems gt ++ forestItems rest

end

end Parse

namespace Sgf

/-- A fresh property with no values always validates cleanly, keeping
its identity and empty value list. -/
theorem NewProperty_nil (idy : String) :
    (NewProperty idy []).2 = none ∧ (NewProperty idy []).1.identity = idy ∧
      (NewProperty idy []).1.values = [] := by
  unfold NewProperty
  cases h : propertyTypeMap idy <;>
    simp [Property.validatePropertyValues]

/-- A successful `AddValue` of a placeholder-validator value appends the
value (with the property's validator name) and keeps the identity. -/
theorem AddValue_unknown (p : Property) (v : String) (p' : Property)
    (h : Property.AddValue p ⟨v, "unknown"⟩ = (p', none)) :
    p'.identity = p.identity ∧
      p'.values = p.values ++ [⟨v, p.validatorName⟩] := by
  unfold Property.AddValue at h
  rw [if_pos rfl] at h
  simp only at h
  obtain ⟨st, hst⟩ :=
    validatePropertyValues_fields { p with values := p.values ++ [⟨v, p.validatorName⟩] }
  have h2 := congrArg Prod.fst h
  simp only at h2
  rw [hst] at h2
  subst h2
  exact ⟨rfl, rfl⟩

/-- A successful `AddProperty` appends the property, and its identity is
fresh among the existing ones. -/
theorem AddProperty_ok (props : List Property) (p : Property) (props' : List Property)
    (h : Node.AddProperty props p = .ok props') :
    props' = props ++ [p] ∧
      props.any (fun q => p.identity = q.identity) = false := by
  unfold Node.AddProperty at h
  by_cases hc : props.any (fun q => p.identity = q.identity) = true
  · rw [if_pos hc] at h
    cases h
  · rw [if_neg hc] at h
    injection h with h2
    exact ⟨h2.symm, by simpa using hc⟩

/-- Appending a fresh identity preserves identity distinctness. -/
theorem distinctIdents_snoc (props : List Property) (p : Property)
    (hd : distinctIdents props = true)
    (hfresh : props.any (fun q => p.identity = q.identity) = false) :
    distinctIdents (props ++ [p]) = true := by
  induction props with
  | nil => simp [distinctIdents]
  | cons q rest ih =>
    simp only [distinctIdents, Bool.and_eq_true] at hd
    simp only [List.any_cons, Bool.or_eq_false_iff] at hfresh
    simp only [List.cons_append, distinctIdents, List.append_eq, Bool.and_eq_true,
      List.all_append, List.all_cons, List.all_nil, Bool.and_true]
    refine ⟨⟨hd.1, ?_⟩, ih hd.2 hfresh.2⟩
    simp only [bne_iff_ne, ne_eq]
    intro hqp
    rw [decide_eq_false_iff_not] at hfresh
    · exact hfresh.1 hqp.symm

/-- In a distinct list, an element's identity does not occur before it. -/
theorem distinctIdents_split (xs : List Property) (y : Property) (zs : List Property)
    (h : distinctIdents (xs ++ y :: zs) = true) :
    xs.any (fun q => y.identity = q.identity) = false := by
  induction xs with
  | nil => simp
  | cons q xs' ih =>
    simp only [List.cons_append, distinctIdents, Bool.and_eq_true] at h
    simp only [List.any_cons, Bool.or_eq_false_iff]
    refine ⟨?_, ih h.2⟩
    have hq := h.1
    rw [List.all_eq_true] at hq
    have hy := hq y (by simp)
    simp only [bne_iff_ne, ne_eq, decide_eq_true_eq] at hy
    simp only [decide_eq_false_iff_not]
    exact fun hc => hy hc.symm

/-- The last node of a snoc list is the appended one. -/
theorem lastNodeOk_snoc (ns : List Node) (n : Node) :
    lastNodeOk (ns ++ [n]) = !n.properties.isEmpty := by
  induction ns with
  | nil => rfl
  | cons m ms ih =>
    cases ms with
    | nil => rfl
    | cons m2 ms2 =>
      simp only [List.cons_append, lastNodeOk] at ih ⊢
      exact ih

/-- Forest wellformedness of a snoc. -/
theorem wfForestB_snoc (gts : List GameTree) (g : GameTree) :
    wfForestB (gts ++ [g]) = (wfForestB gts && wfTreeB g) := by
  induction gts with
  | nil => simp [wfForestB]
  | cons g2 rest ih =>
    simp only [List.cons_append, wfForestB, List.append_eq, ih, Bool.and_assoc]

end Sgf

namespace Parse

/-- Facts about an upper-case letter needed by the identifier states: it
is none of the lexer's dispatch characters. -/
theorem upper_facts (c : Char) (h1 : 'A' ≤ c) (h2 : c ≤ 'Z') :
    whitespaceChar c = false ∧ c ≠ eofChar ∧ c ≠ ';' ∧ c ≠ '[' ∧ c ≠ '(' ∧ c ≠ ')' ∧
      ¬(c < 'A' ∨ 'Z' < c) := by
  refine ⟨?_, ?_, ?_, ?_, ?_, ?_, ?_⟩
  · simp only [whitespaceChar, decide_eq_false_iff_not]
    rintro (rfl | rfl | rfl) <;> revert h1 <;> decide
  · rintro rfl; revert h1; decide
  · rintro rfl; revert h1; decide
  · rintro rfl; revert h2; decide
  · rintro rfl; revert h1; decide
  · rintro rfl; revert h1; decide
  · push_neg
    exact ⟨h1, h2⟩

/-- A character other than the NUL byte has nonzero code. -/
theorem ne_eof_toNat (c : Char) (h : c ≠ eofChar) : c.toNat ≠ 0 := by
  intro h0
  apply h
  apply Char.ext
  have h1 : c.val.toNat = (0 : UInt32).toNat := h0
  rw [UInt32.toNat.inj h1]
  rfl

end Parse

namespace Parse

/-- The lexer positions distinguished by the stream invariant: `bytes`
is the top level (Go `lexBytes`), `tree` is inside a game tree between
tokens (Go `lexTree`), `identP` is at a node boundary where a property
identifier run or another `;` may start (Go `lexProperty` with an empty
accumulator), and `afterP` is just behind a closing bracket (Go
`lexPropertyValueEnd`). -/
inductive SPos where
  | bytes
  | tree
  | identP
  | afterP
deriving DecidableEq, Repr

/-- The shapes a lexer-produced item stream can take from each position.
Terminal items (errors, warnings, end of input) are allowed with any
tail because the parser stops at them; the structured constructors carry
the facts the parser needs: a property identifier is always followed by
exactly one bracketed value (or a fatal error inside the value), the
identifier is short and upper-case, the value text is escape-closed, and
an open or close parenthesis can never appear directly at a node
boundary (`identP` has no parenthesis constructors). -/
inductive SInv : SPos → List item → Prop where
  | berr (e : String) (rest : List item) : SInv .bytes (.error e :: rest)
  | beof (rest : List item) : SInv .bytes (.eofItem :: rest)
  | bopen (rest : List item) : SInv .tree rest → SInv .bytes (.openParen :: rest)
  | bclose_t (rest : List item) : SInv .tree rest → SInv .bytes (.closeParen :: rest)
  | bclose_b (rest : List item) : SInv .bytes rest → SInv .bytes (.closeParen :: rest)
  | terr (e : String) (rest : List item) : SInv .tree (.error e :: rest)
  | tsemi (rest : List item) : SInv .identP rest → SInv .tree (.semiColon :: rest)
  | topen (rest : List item) : SInv .tree rest → SInv .tree (.openParen :: rest)
  | tclose_t (rest : List item) : SInv .tree rest → SInv .tree (.closeParen :: rest)
  | tclose_b (rest : List item) : SInv .bytes rest → SInv .tree (.closeParen :: rest)
  | ierr (e : String) (rest : List item) : SInv .identP (.error e :: rest)
  | iwarn (m : String) (rest : List item) : SInv .identP (.warning m :: rest)
  | isemi (rest : List item) : SInv .identP rest → SInv .identP (.semiColon :: rest)
  | ichunk (idv w : List Char) (rest : List item) :
      identOkB idv = true → idv.length ≤ 2 → valueOkB w = true → SInv .afterP rest →
      SInv .identP (.propertyIdent idv :: .openBracket :: .propertyValue w ::
        .closeBracket :: rest)
  | ichunkErr (idv : List Char) (e : String) (rest : List item) :
      SInv .identP (.propertyIdent idv :: .openBracket :: .error e :: rest)
  | aerr (e : String) (rest : List item) : SInv .afterP (.error e :: rest)
  | awarn (m : String) (rest : List item) : SInv .afterP (.warning m :: rest)
  | asemi (rest : List item) : SInv .identP rest → SInv .afterP (.semiColon :: rest)
  | aopen (rest : List item) : SInv .tree rest → SInv .afterP (.openParen :: rest)
  | aclose_t (rest : List item) : SInv .tree rest → SInv .afterP (.closeParen :: rest)
  | aclose_b (rest : List item) : SInv .bytes rest → SInv .afterP (.closeParen :: rest)
  | achunk (idv w : List Char) (rest : List item) :
      identOkB idv = true → idv.length ≤ 2 → valueOkB w = true → SInv .afterP rest →
      SInv .afterP (.propertyIdent idv :: .openBracket :: .propertyValue w ::
        .closeBracket :: rest)
  | achunkErr (idv : List Char) (e : String) (rest : List item) :
      SInv .afterP (.propertyIdent idv :: .openBracket :: .error e :: rest)

/-- Every stream the state machine produces satisfies the invariant of
the position corresponding to its starting state; the value states emit
an escape-closed value text followed by an after-value stream (or fail),
and an identifier state with a non-empty accumulator also satisfies the
after-value invariant (it can no longer emit a bare semicolon item). -/
theorem lexInv : ∀ (N : Nat) (input : List Char), input.length ≤ N → ∀ d,
    SInv .bytes (run .lexBytes d input) ∧
    SInv .tree (run .lexTree d input) ∧
    (∀ acc, identOkB acc = true →
      SInv .identP (run (.lexIdent acc) d input) ∧
      (acc = [] ∨ SInv .afterP (run (.lexIdent acc) d input))) ∧
    (∀ acc esc,
      (∃ e t, run (.lexValue acc esc) d input = .error e :: t) ∨
      (∃ w rest, run (.lexValue acc esc) d input =
          .propertyValue (acc ++ w) :: .closeBracket :: rest ∧ SInv .afterP rest ∧
          (esc = false → valueOkB w = true) ∧ (esc = true → valueTailOkB w = true))) ∧
    SInv .afterP (run .lexAfterValue d input) := by
  intro N
  induction N with
  | zero =>
    intro input hlen d
    cases input with
    | cons c rest => simp at hlen
    | nil =>
      refine ⟨SInv.beof _, SInv.terr _ _, ?_, ?_, SInv.aerr _ _⟩
      · intro acc hacc
        exact ⟨SInv.ierr _ _, Or.inr (SInv.aerr _ _)⟩
      · intro acc esc
        exact Or.inl ⟨_, _, rfl⟩
  | succ N ih =>
    intro input hlen d
    cases input with
    | nil =>
      refine ⟨SInv.beof _, SInv.terr _ _, ?_, ?_, SInv.aerr _ _⟩
      · intro acc hacc
        exact ⟨SInv.ierr _ _, Or.inr (SInv.aerr _ _)⟩
      · intro acc esc
        exact Or.inl ⟨_, _, rfl⟩
    | cons c rest =>
      have hrest : rest.length ≤ N := by simp at hlen; omega
      refine ⟨?_, ?_, ?_, ?_, ?_⟩
      · -- lexBytes
        simp only [run]
        split_ifs with h1 h2 h3 h4 h5
        · exact SInv.beof _
        · exact SInv.bopen _ ((ih rest hrest (d + 1)).2.1)
        · exact SInv.berr _ _
        · exact SInv.bclose_t _ ((ih rest hrest (d - 1)).2.1)
        · exact SInv.bclose_b _ ((ih rest hrest (d - 1)).1)
        · exact (ih rest hrest d).1
      · -- lexTree
        simp only [run]
        split_ifs with h1 h2 h3 h4 h5 h6
        · exact SInv.terr _ _
        · exact SInv.tsemi _ (((ih rest hrest d).2.2.1 [] rfl).1)
        · exact SInv.topen _ ((ih rest hrest (d + 1)).2.1)
        · exact SInv.terr _ _
        · exact SInv.tclose_t _ ((ih rest hrest (d - 1)).2.1)
        · exact SInv.tclose_b _ ((ih rest hrest (d - 1)).1)
        · exact (ih rest hrest d).2.1
      · -- lexIdent
        intro acc hacc
        constructor
        · simp only [run]
          split_ifs with h1 h2 h3 h4 h5 h6 h7
          · exact (((ih rest hrest d).2.2.1) [] rfl).1
          · exact SInv.ierr _ _
          · exact SInv.isemi _ (((ih rest hrest d).2.2.1 [] rfl).1)
          · exact SInv.ierr _ _
          · simp only [List.singleton_append]
            exact SInv.iwarn _ _
          · simp only [List.nil_append]
            rcases (ih rest hrest d).2.2.2.1 [] false with ⟨e, t, hv⟩ | ⟨w, rest', hv, hinv, hok, _⟩
            · rw [hv]
              exact SInv.ichunkErr _ _ _
            · simp only [List.nil_append] at hv
              rw [hv]
              exact SInv.ichunk _ _ _ hacc (by omega) (hok rfl) hinv
          · exact SInv.ierr _ _
          · refine (((ih rest hrest d).2.2.1) (acc ++ [c]) ?_).1
            push_neg at h7
            simp only [identOkB, List.all_append, List.all_cons, List.all_nil,
              Bool.and_true, Bool.and_eq_true]
            refine ⟨by simpa [identOkB] using hacc, ?_⟩
            simp only [decide_eq_true_eq]
            exact ⟨h7.1, h7.2⟩
        · by_cases hae : acc = []
          · exact Or.inl hae
          · refine Or.inr ?_
            simp only [run]
            split_ifs with h1 h2 h3 h4 h5 h6
            · exact absurd h1.1 hae
            · exact SInv.aerr _ _
            · exact SInv.aerr _ _
            · simp only [List.singleton_append]
              exact SInv.awarn _ _
            · simp only [List.nil_append]
              rcases (ih rest hrest d).2.2.2.1 [] false with ⟨e, t, hv⟩ | ⟨w, rest', hv, hinv, hok, _⟩
              · rw [hv]
                exact SInv.achunkErr _ _ _
              · simp only [List.nil_append] at hv
                rw [hv]
                exact SInv.achunk _ _ _ hacc (by omega) (hok rfl) hinv
            · exact SInv.aerr _ _
            · have hne : acc ++ [c] ≠ [] := by simp
              refine (((ih rest hrest d).2.2.1 (acc ++ [c]) ?_).2).resolve_left hne
              push_neg at h6
              simp only [identOkB, List.all_append, List.all_cons, List.all_nil,
                Bool.and_true, Bool.and_eq_true]
              refine ⟨by simpa [identOkB] using hacc, ?_⟩
              simp only [decide_eq_true_eq]
              exact ⟨h6.1, h6.2⟩
      · -- lexValue
        intro acc esc
        simp only [run]
        split_ifs with h1 h2 h3 h4
        · -- escaped: the next character is taken blindly
          rcases (ih rest hrest d).2.2.2.1 (acc ++ [c]) false with ⟨e, t, hv⟩ | ⟨w, rest', hv, hinv, hok, _⟩
          · exact Or.inl ⟨e, t, hv⟩
          · refine Or.inr ⟨c :: w, rest', ?_, hinv, ?_, ?_⟩
            · rw [hv]
              simp
            · intro hf
              rw [hf] at h1
              cases h1
            · intro _
              simp only [valueTailOkB]
              exact hok rfl
        · exact Or.inl ⟨_, _, rfl⟩
        · -- backslash: enter escape mode
          rcases (ih rest hrest d).2.2.2.1 (acc ++ [c]) true with ⟨e, t, hv⟩ | ⟨w, rest', hv, hinv, _, hok⟩
          · exact Or.inl ⟨e, t, hv⟩
          · refine Or.inr ⟨c :: w, rest', ?_, hinv, ?_, ?_⟩
            · rw [hv]
              simp
            · intro _
              subst h3
              simp only [valueOkB, if_pos rfl]
              exact hok rfl
            · intro ht
              exact absurd ht h1
        · -- closing bracket: emit the value
          refine Or.inr ⟨[], run .lexAfterValue d rest, ?_, (ih rest hrest d).2.2.2.2, ?_, ?_⟩
          · rw [List.append_nil]
          · intro _
            rfl
          · intro ht
            exact absurd ht h1
        · -- ordinary value character
          rcases (ih rest hrest d).2.2.2.1 (acc ++ [c]) false with ⟨e, t, hv⟩ | ⟨w, rest', hv, hinv, hok, _⟩
          · exact Or.inl ⟨e, t, hv⟩
          · refine Or.inr ⟨c :: w, rest', ?_, hinv, ?_, ?_⟩
            · rw [hv]
              simp
            · intro _
              simp only [valueOkB, if_neg h3, Bool.and_eq_true, decide_eq_true_eq]
              exact ⟨⟨h4, ne_eof_toNat c h2⟩, hok rfl⟩
            · intro ht
              exact absurd ht h1
      · -- lexAfterValue
        simp only [run]
        split_ifs with h1 h2 h3 h4 h5 h6 h7 h8 h9
        · exact (ih rest hrest d).2.2.2.2
        · exact SInv.asemi _ (((ih rest hrest d).2.2.1 [] rfl).1)
        · exact SInv.aopen _ ((ih rest hrest (d + 1)).2.1)
        · exact SInv.aerr _ _
        · exact SInv.aclose_t _ ((ih rest hrest (d - 1)).2.1)
        · exact SInv.aclose_b _ ((ih rest hrest (d - 1)).1)
        · exact SInv.aerr _ _
        · rcases (ih rest hrest d).2.2.2.1 [] false with ⟨e, t, hv⟩ | ⟨w, rest', hv, hinv, hok, _⟩
          · rw [hv]
            exact SInv.achunkErr _ _ _
          · simp only [List.nil_append] at hv
            rw [hv]
            exact SInv.achunk _ _ _ rfl (by simp) (hok rfl) hinv
        · exact SInv.aerr _ _
        · have hid : identOkB [c] = true := by
            push_neg at h9
            simp only [identOkB, List.all_cons, List.all_nil, Bool.and_true,
              decide_eq_true_eq]
            exact ⟨h9.1, h9.2⟩
          have hne : [c] ≠ ([] : List Char) := by simp
          exact (((ih rest hrest d).2.2.1 [c] hid).2).resolve_left hne

/-- The full lexer output satisfies the top-level stream invariant. -/
theorem lex_SInv (data : List Char) : SInv .bytes (lex data) :=
  (lexInv data.length data (Nat.le_refl _) 0).1

end Parse

namespace Parse

/-- A successful property flush preserves the node-level invariants. -/
theorem addProp_wf (props : List Sgf.Property) (p : Sgf.Property) (props' : List Sgf.Property)
    (hprops : props.all Sgf.wfPropertyB = true) (hdist : Sgf.distinctIdents props = true)
    (hp : Sgf.wfPropertyB p = true)
    (h : Sgf.Node.AddProperty props p = .ok props') :
    props'.all Sgf.wfPropertyB = true ∧ Sgf.distinctIdents props' = true ∧ props' ≠ [] := by
  obtain ⟨he, hfr⟩ := Sgf.AddProperty_ok _ _ _ h
  subst he
  refine ⟨?_, Sgf.distinctIdents_snoc _ _ hdist hfr, by simp⟩
  simp only [List.all_append, List.all_cons, List.all_nil, Bool.and_true, Bool.and_eq_true]
  exact ⟨hprops, hp⟩

/-- The property built from one lexer chunk is well-formed. -/
theorem wfPropertyB_build (idv w : List Char) (p2 : Sgf.Property)
    (hAV : Sgf.Property.AddValue (Sgf.NewProperty (String.mk idv) []).1
        ⟨String.mk w, "unknown"⟩ = (p2, none))
    (hid : identOkB idv = true) (hlen : idv.length ≤ 2) (hw : valueOkB w = true) :
    Sgf.wfPropertyB p2 = true := by
  obtain ⟨hno, hidy, hvals⟩ := Sgf.NewProperty_nil (String.mk idv)
  obtain ⟨hidy2, hvals2⟩ := Sgf.AddValue_unknown _ _ _ hAV
  have hmk : Sgf.mkPropE p2.identity (String.mk w) = .ok p2 := by
    rw [hidy2, hidy]
    unfold Sgf.mkPropE
    have hnp : Sgf.NewProperty (String.mk idv) [] =
        ((Sgf.NewProperty (String.mk idv) []).1, none) := Prod.ext rfl hno
    rw [hnp]
    simp only
    rw [hAV]
  have hvv : p2.values = [⟨String.mk w,
      (Sgf.NewProperty (String.mk idv) []).1.validatorName⟩] := by
    rw [hvals2, hvals]
    simp
  unfold Sgf.wfPropertyB
  rw [hvv]
  simp only [Bool.and_eq_true]
  refine ⟨⟨⟨?_, ?_⟩, ?_⟩, ?_⟩
  · rw [hidy2, hidy]
    exact hid
  · rw [hidy2, hidy]
    simpa using hlen
  · exact hw
  · rw [hmk]
    simp

/-- Well-formedness of the node and continuation facts for a successful
`parseNode` on a lexer stream at a node boundary. -/
theorem P_node : ∀ (N : Nat) (items : List item), items.length ≤ N →
    ∀ (props : List Sgf.Property) (o : Option Sgf.Property),
      props.all Sgf.wfPropertyB = true →
      Sgf.distinctIdents props = true →
      (∀ p, o = some p → Sgf.wfPropertyB p = true) →
      (SInv .identP items ∨ (SInv .afterP items ∧ (o ≠ none ∨ props ≠ []))) →
      ∀ {n : Sgf.Node} {it' : item} {rest : List item},
      parseNode props o none items = .ok (n, it', rest) →
      n.properties.all Sgf.wfPropertyB = true ∧ Sgf.distinctIdents n.properties = true ∧
      ((it' = .semiColon ∧ SInv .identP rest) ∨
       (it' = .openParen ∧ SInv .tree rest ∧ n.properties ≠ []) ∨
       (it' = .closeParen ∧ (SInv .tree rest ∨ SInv .bytes rest) ∧ n.properties ≠ [])) := by
  intro N
  induction N with
  | zero =>
    intro items hlen props o hprops hdist ho hstream n it' rest h
    have hnil : items = [] := by
      cases items with
      | nil => rfl
      | cons a b => simp at hlen
    subst hnil
    simp [parseNode] at h
  | succ N ih =>
    intro items hlen props o hprops hdist ho hstream n it' rest h
    rcases hstream with hs | ⟨hs, hne⟩
    · cases hs with
      | ierr e rest0 => simp [parseNode] at h
      | iwarn m rest0 => simp [parseNode] at h
      | isemi rest0 hs0 =>
        cases o with
        | none =>
          simp only [parseNode] at h
          cases h
          exact ⟨hprops, hdist, Or.inl ⟨rfl, hs0⟩⟩
        | some p =>
          simp only [parseNode] at h
          rcases hAP : Sgf.Node.AddProperty props p with e | props' <;> rw [hAP] at h
          · cases h
          · cases h
            obtain ⟨hw1, hw2, _⟩ := addProp_wf _ _ _ hprops hdist (ho p rfl) hAP
            exact ⟨hw1, hw2, Or.inl ⟨rfl, hs0⟩⟩
      | ichunkErr idv e rest0 =>
        cases o with
        | none =>
          simp only [parseNode] at h
          rcases hnp : Sgf.NewProperty (String.mk idv) [] with ⟨p0, oe⟩
          rcases oe with _ | e2 <;> rw [hnp] at h <;> simp at h
        | some p =>
          simp only [parseNode] at h
          rcases hAP : Sgf.Node.AddProperty props p with e2 | props' <;> rw [hAP] at h
          · cases h
          · rcases hnp : Sgf.NewProperty (String.mk idv) [] with ⟨p0, oe⟩
            rcases oe with _ | e2 <;> rw [hnp] at h <;> simp at h
      | ichunk idv w rest0 hid hlen2 hw hs0 =>
        have hno := (Sgf.NewProperty_nil (String.mk idv)).1
        have hnp : Sgf.NewProperty (String.mk idv) [] =
            ((Sgf.NewProperty (String.mk idv) []).1, none) := Prod.ext rfl hno
        cases o with
        | none =>
          simp only [parseNode, Sgf.NewEmptyPropertyValue, Sgf.PropertyValue.SetValue] at h
          rw [hnp] at h
          simp only at h
          rcases hAV : Sgf.Property.AddValue (Sgf.NewProperty (String.mk idv) []).1
              ⟨String.mk w, "unknown"⟩ with ⟨p2, oe⟩
          rcases oe with _ | e2 <;> rw [hAV] at h
          · have hp2 := wfPropertyB_build idv w p2 hAV hid hlen2 hw
            have hlen3 : rest0.length ≤ N := by
              simp only [List.length_cons] at hlen
              omega
            exact ih rest0 hlen3 props (some p2) hprops hdist
              (fun p hp => by cases hp; exact hp2)
              (Or.inr ⟨hs0, Or.inl (by simp)⟩) h
          · simp at h
        | some p =>
          simp only [parseNode, Sgf.NewEmptyPropertyValue, Sgf.PropertyValue.SetValue] at h
          rcases hAP : Sgf.Node.AddProperty props p with e2 | props' <;> rw [hAP] at h
          · cases h
          · rw [hnp] at h
            simp only at h
            rcases hAV : Sgf.Property.AddValue (Sgf.NewProperty (String.mk idv) []).1
                ⟨String.mk w, "unknown"⟩ with ⟨p2, oe⟩
            rcases oe with _ | e2 <;> rw [hAV] at h
            · have hp2 := wfPropertyB_build idv w p2 hAV hid hlen2 hw
              obtain ⟨hw1, hw2, _⟩ := addProp_wf _ _ _ hprops hdist (ho p rfl) hAP
              have hlen3 : rest0.length ≤ N := by
                simp only [List.length_cons] at hlen
                omega
              exact ih rest0 hlen3 props' (some p2) hw1 hw2
                (fun p3 hp3 => by cases hp3; exact hp2)
                (Or.inr ⟨hs0, Or.inl (by simp)⟩) h
            · simp at h
    · cases hs with
      | aerr e rest0 => simp [parseNode] at h
      | awarn m rest0 => simp [parseNode] at h
      | asemi rest0 hs0 =>
        cases o with
        | none =>
          simp only [parseNode] at h
          cases h
          exact ⟨hprops, hdist, Or.inl ⟨rfl, hs0⟩⟩
        | some p =>
          simp only [parseNode] at h
          rcases hAP : Sgf.Node.AddProperty props p with e | props' <;> rw [hAP] at h
          · cases h
          · cases h
            obtain ⟨hw1, hw2, _⟩ := addProp_wf _ _ _ hprops hdist (ho p rfl) hAP
            exact ⟨hw1, hw2, Or.inl ⟨rfl, hs0⟩⟩
      | aopen rest0 hs0 =>
        cases o with
        | none =>
          simp only [parseNode] at h
          cases h
          refine ⟨hprops, hdist, Or.inr (Or.inl ⟨rfl, hs0, ?_⟩)⟩
          rcases hne with hne | hne
          · exact absurd rfl hne
          · exact hne
        | some p =>
          simp only [parseNode] at h
          rcases hAP : Sgf.Node.AddProperty props p with e | props' <;> rw [hAP] at h
          · cases h
          · cases h
            obtain ⟨hw1, hw2, hne2⟩ := addProp_wf _ _ _ hprops hdist (ho p rfl) hAP
            exact ⟨hw1, hw2, Or.inr (Or.inl ⟨rfl, hs0, hne2⟩)⟩
      | aclose_t rest0 hs0 =>
        cases o with
        | none =>
          simp only [parseNode] at h
          cases h
          refine ⟨hprops, hdist, Or.inr (Or.inr ⟨rfl, Or.inl hs0, ?_⟩)⟩
          rcases hne with hne | hne
          · exact absurd rfl hne
          · exact hne
        | some p =>
          simp only [parseNode] at h
          rcases hAP : Sgf.Node.AddProperty props p with e | props' <;> rw [hAP] at h
          · cases h
          · cases h
            obtain ⟨hw1, hw2, hne2⟩ := addProp_wf _ _ _ hprops hdist (ho p rfl) hAP
            exact ⟨hw1, hw2, Or.inr (Or.inr ⟨rfl, Or.inl hs0, hne2⟩)⟩
      | aclose_b rest0 hs0 =>
        cases o with
        | none =>
          simp only [parseNode] at h
          cases h
          refine ⟨hprops, hdist, Or.inr (Or.inr ⟨rfl, Or.inr hs0, ?_⟩)⟩
          rcases hne with hne | hne
          · exact absurd rfl hne
          · exact hne
        | some p =>
          simp only [parseNode] at h
          rcases hAP : Sgf.Node.AddProperty props p with e | props' <;> rw [hAP] at h
          · cases h
          · cases h
            obtain ⟨hw1, hw2, hne2⟩ := addProp_wf _ _ _ hprops hdist (ho p rfl) hAP
            exact ⟨hw1, hw2, Or.inr (Or.inr ⟨rfl, Or.inr hs0, hne2⟩)⟩
      | achunkErr idv e rest0 =>
        cases o with
        | none =>
          simp only [parseNode] at h
          rcases hnp : Sgf.NewProperty (String.mk idv) [] with ⟨p0, oe⟩
          rcases oe with _ | e2 <;> rw [hnp] at h <;> simp at h
        | some p =>
          simp only [parseNode] at h
          rcases hAP : Sgf.Node.AddProperty props p with e2 | props' <;> rw [hAP] at h
          · cases h
          · rcases hnp : Sgf.NewProperty (String.mk idv) [] with ⟨p0, oe⟩
            rcases oe with _ | e2 <;> rw [hnp] at h <;> simp at h
      | achunk idv w rest0 hid hlen2 hw hs0 =>
        have hno := (Sgf.NewProperty_nil (String.mk idv)).1
        have hnp : Sgf.NewProperty (String.mk idv) [] =
            ((Sgf.NewProperty (String.mk idv) []).1, none) := Prod.ext rfl hno
        cases o with
        | none =>
          simp only [parseNode, Sgf.NewEmptyPropertyValue, Sgf.PropertyValue.SetValue] at h
          rw [hnp] at h
          simp only at h
          rcases hAV : Sgf.Property.AddValue (Sgf.NewProperty (String.mk idv) []).1
              ⟨String.mk w, "unknown"⟩ with ⟨p2, oe⟩
          rcases oe with _ | e2 <;> rw [hAV] at h
          · have hp2 := wfPropertyB_build idv w p2 hAV hid hlen2 hw
            have hlen3 : rest0.length ≤ N := by
              simp only [List.length_cons] at hlen
              omega
            exact ih rest0 hlen3 props (some p2) hprops hdist
              (fun p hp => by cases hp; exact hp2)
              (Or.inr ⟨hs0, Or.inl (by simp)⟩) h
          · simp at h
        | some p =>
          simp only [parseNode, Sgf.NewEmptyPropertyValue, Sgf.PropertyValue.SetValue] at h
          rcases hAP : Sgf.Node.AddProperty props p with e2 | props' <;> rw [hAP] at h
          · cases h
          · rw [hnp] at h
            simp only at h
            rcases hAV : Sgf.Property.AddValue (Sgf.NewProperty (String.mk idv) []).1
                ⟨String.mk w, "unknown"⟩ with ⟨p2, oe⟩
            rcases oe with _ | e2 <;> rw [hAV] at h
            · have hp2 := wfPropertyB_build idv w p2 hAV hid hlen2 hw
              obtain ⟨hw1, hw2, _⟩ := addProp_wf _ _ _ hprops hdist (ho p rfl) hAP
              have hlen3 : rest0.length ≤ N := by
                simp only [List.length_cons] at hlen
                omega
              exact ih rest0 hlen3 props' (some p2) hw1 hw2
                (fun p3 hp3 => by cases hp3; exact hp2)
                (Or.inr ⟨hs0, Or.inl (by simp)⟩) h
            · simp at h

end Parse

namespace Parse

/-- Well-formedness of the node sequence and continuation facts for a
successful sequence loop on a lexer stream. -/
theorem P_seqGo : ∀ (N : Nat) (items : List item), items.length ≤ N →
    ∀ (acc : List Sgf.Node) (it : item),
      acc.all Sgf.wfNodeB = true →
      ((it = .semiColon ∧ SInv .identP items) ∨
       (it = .openParen ∧ SInv .tree items ∧ Sgf.lastNodeOk acc = true) ∨
       (it = .closeParen ∧ (SInv .tree items ∨ SInv .bytes items) ∧
         Sgf.lastNodeOk acc = true) ∨
       (∃ e, it = .error e)) →
      ∀ {s : List Sgf.Node} {it' : item} {rest : List item},
      parseSeqGo acc it items = .ok (s, it', rest) →
      s.all Sgf.wfNodeB = true ∧ Sgf.lastNodeOk s = true ∧
      ((it' = .openParen ∧ SInv .tree rest) ∨
       (it' = .closeParen ∧ (SInv .tree rest ∨ SInv .bytes rest))) := by
  intro N
  induction N with
  | zero =>
    intro items hlen acc it hacc hQ s it' rest h
    have hnil : items = [] := by
      cases items with
      | nil => rfl
      | cons a b => simp at hlen
    subst hnil
    rcases hQ with ⟨rfl, hsI⟩ | ⟨rfl, hsT, hlast⟩ | ⟨rfl, hsTB, hlast⟩ | ⟨e, rfl⟩
    · rw [parseSeqGo_semi_err _ [] "parse: lexer channel closed unexpectedly" rfl] at h
      cases h
    · have hie : acc.isEmpty = false := by
        cases acc with
        | nil => simp [Sgf.lastNodeOk] at hlast
        | cons a b => simp
      simp only [parseSeqGo, hie, Bool.false_eq_true, if_false] at h
      cases h
      exact ⟨hacc, hlast, Or.inl ⟨rfl, hsT⟩⟩
    · have hie : acc.isEmpty = false := by
        cases acc with
        | nil => simp [Sgf.lastNodeOk] at hlast
        | cons a b => simp
      simp only [parseSeqGo, hie, Bool.false_eq_true, if_false] at h
      cases h
      exact ⟨hacc, hlast, Or.inr ⟨rfl, hsTB⟩⟩
    · simp [parseSeqGo] at h
  | succ N ih =>
    intro items hlen acc it hacc hQ s it' rest h
    rcases hQ with ⟨rfl, hsI⟩ | ⟨rfl, hsT, hlast⟩ | ⟨rfl, hsTB, hlast⟩ | ⟨e, rfl⟩
    · rcases hN : parseNode [] none none items with e | ⟨⟨n, it2, rest2⟩⟩
      · rw [parseSeqGo_semi_err _ _ _ hN] at h
        cases h
      · rw [parseSeqGo_semi _ _ _ _ _ hN] at h
        obtain ⟨hwfp, hdistp, hcase⟩ :=
          P_node items.length items (Nat.le_refl _) [] none rfl rfl
            (fun p hp => by cases hp) (Or.inl hsI) hN
        have hwfn : Sgf.wfNodeB n = true := by
          simp [Sgf.wfNodeB, hwfp, hdistp]
        have hacc2 : (acc ++ [n]).all Sgf.wfNodeB = true := by
          simp only [List.all_append, List.all_cons, List.all_nil, Bool.and_true,
            Bool.and_eq_true]
          exact ⟨hacc, hwfn⟩
        have hlen2 : rest2.length ≤ N := by
          have := parseNode_len _ _ _ _ hN
          omega
        rcases hcase with ⟨rfl, hsI2⟩ | ⟨rfl, hsT2, hne⟩ | ⟨rfl, hsTB2, hne⟩
        · exact ih rest2 hlen2 (acc ++ [n]) _ hacc2 (Or.inl ⟨rfl, hsI2⟩) h
        · have hlast2 : Sgf.lastNodeOk (acc ++ [n]) = true := by
            rw [Sgf.lastNodeOk_snoc]
            cases hp : n.properties with
            | nil => exact absurd hp hne
            | cons a b => simp [hp]
          exact ih rest2 hlen2 (acc ++ [n]) _ hacc2
            (Or.inr (Or.inl ⟨rfl, hsT2, hlast2⟩)) h
        · have hlast2 : Sgf.lastNodeOk (acc ++ [n]) = true := by
            rw [Sgf.lastNodeOk_snoc]
            cases hp : n.properties with
            | nil => exact absurd hp hne
            | cons a b => simp [hp]
          exact ih rest2 hlen2 (acc ++ [n]) _ hacc2
            (Or.inr (Or.inr (Or.inl ⟨rfl, hsTB2, hlast2⟩))) h
    · have hie : acc.isEmpty = false := by
        cases acc with
        | nil => simp [Sgf.lastNodeOk] at hlast
        | cons a b => simp
      simp only [parseSeqGo, hie, Bool.false_eq_true, if_false] at h
      cases h
      exact ⟨hacc, hlast, Or.inl ⟨rfl, hsT⟩⟩
    · have hie : acc.isEmpty = false := by
        cases acc with
        | nil => simp [Sgf.lastNodeOk] at hlast
        | cons a b => simp
      simp only [parseSeqGo, hie, Bool.false_eq_true, if_false] at h
      cases h
      exact ⟨hacc, hlast, Or.inr ⟨rfl, hsTB⟩⟩
    · simp [parseSeqGo] at h

end Parse

namespace Parse

/-- A successful `parseGameTreeE` strictly shortens the stream. -/
theorem parseGameTreeE_len (items : List item) {gt : Sgf.GameTree} {rest : List item}
    (h : parseGameTreeE items = .ok (gt, rest)) : rest.length < items.length := by
  unfold parseGameTreeE at h
  rcases hg : parseGameTree items with e | ⟨⟨gt0, ⟨r0, hr0⟩⟩⟩ <;> rw [hg] at h
  · cases h
  · cases h
    exact hr0

/-- Well-formedness of the assembled tree and continuation facts for a
successful subtree loop, given the analogous fact for `parseGameTreeE`
on streams up to the given length. -/
theorem P_loopE_aux : ∀ (N : Nat),
    (∀ (items2 : List item), items2.length ≤ N → SInv .tree items2 →
      ∀ {gt : Sgf.GameTree} {rest : List item},
        parseGameTreeE items2 = .ok (gt, rest) →
        Sgf.wfTreeB gt = true ∧ (SInv .tree rest ∨ SInv .bytes rest)) →
    ∀ (items : List item), items.length ≤ N →
    ∀ (seq : List Sgf.Node) (subs : List Sgf.GameTree) (it : item),
      seq.all Sgf.wfNodeB = true → Sgf.lastNodeOk seq = true → Sgf.wfForestB subs = true →
      (it = .openParen → SInv .tree items) →
      (it = .closeParen → SInv .tree items ∨ SInv .bytes items) →
      ∀ {gt : Sgf.GameTree} {rest : List item},
        parseGTLoopE seq subs it items = .ok (gt, rest) →
        Sgf.wfTreeB gt = true ∧ (SInv .tree rest ∨ SInv .bytes rest) := by
  intro N
  induction N with
  | zero =>
    intro htree items hlen seq subs it hseq hlast hsubs hopen hclose gt rest h
    cases it
    case closeParen =>
      rw [parseGTLoopE_close] at h
      cases h
      have hie : seq.isEmpty = false := by
        cases seq with
        | nil => simp [Sgf.lastNodeOk] at hlast
        | cons a b => simp
      exact ⟨by simp [Sgf.wfTreeB, Sgf.wfSeqB, hie, hseq, hlast, hsubs], hclose rfl⟩
    case openParen =>
      rw [parseGTLoopE_open] at h
      rcases hg : parseGameTreeE items with e | ⟨⟨sub, rest0⟩⟩ <;> rw [hg] at h
      · cases h
      · have := parseGameTreeE_len items hg
        omega
    all_goals rw [parseGTLoopE_def] at h <;> simp at h
  | succ N ihN =>
    intro htree items hlen seq subs it hseq hlast hsubs hopen hclose gt rest h
    cases it
    case closeParen =>
      rw [parseGTLoopE_close] at h
      cases h
      have hie : seq.isEmpty = false := by
        cases seq with
        | nil => simp [Sgf.lastNodeOk] at hlast
        | cons a b => simp
      exact ⟨by simp [Sgf.wfTreeB, Sgf.wfSeqB, hie, hseq, hlast, hsubs], hclose rfl⟩
    case openParen =>
      rw [parseGTLoopE_open] at h
      rcases hg : parseGameTreeE items with e | ⟨⟨sub, rest0⟩⟩ <;> rw [hg] at h
      · cases h
      · have hglen := parseGameTreeE_len items hg
        obtain ⟨hwfsub, hstream2⟩ := htree items hlen (hopen rfl) hg
        cases rest0 with
        | nil => cases h
        | cons it2 rest2 =>
          have hcont : (it2 = .openParen → SInv .tree rest2) ∧
              (it2 = .closeParen → SInv .tree rest2 ∨ SInv .bytes rest2) := by
            rcases hstream2 with hT | hB
            · cases hT with
              | terr e0 r0 => exact ⟨(fun c => by cases c), (fun c => by cases c)⟩
              | tsemi r0 hs => exact ⟨(fun c => by cases c), (fun c => by cases c)⟩
              | topen r0 hs => exact ⟨(fun _ => hs), (fun c => by cases c)⟩
              | tclose_t r0 hs => exact ⟨(fun c => by cases c), (fun _ => Or.inl hs)⟩
              | tclose_b r0 hs => exact ⟨(fun c => by cases c), (fun _ => Or.inr hs)⟩
            · cases hB with
              | berr e0 r0 => exact ⟨(fun c => by cases c), (fun c => by cases c)⟩
              | beof r0 => exact ⟨(fun c => by cases c), (fun c => by cases c)⟩
              | bopen r0 hs => exact ⟨(fun _ => hs), (fun c => by cases c)⟩
              | bclose_t r0 hs => exact ⟨(fun c => by cases c), (fun _ => Or.inl hs)⟩
              | bclose_b r0 hs => exact ⟨(fun c => by cases c), (fun _ => Or.inr hs)⟩
          have hsubs2 : Sgf.wfForestB (subs ++ [sub]) = true := by
            rw [Sgf.wfForestB_snoc]
            simp [hsubs, hwfsub]
          have hlen2 : rest2.length ≤ N := by
            simp only [List.length_cons] at hglen
            omega
          exact ihN (fun items2 h2 => htree items2 (Nat.le_trans h2 (Nat.le_succ N)))
            rest2 hlen2 seq (subs ++ [sub]) it2 hseq hlast hsubs2
            hcont.1 hcont.2 h
    all_goals rw [parseGTLoopE_def] at h <;> simp at h

/-- Well-formedness of the parsed tree and continuation facts for a
successful `parseGameTreeE` on a lexer stream inside a tree. -/
theorem P_treeE : ∀ (N : Nat) (items : List item), items.length ≤ N → SInv .tree items →
    ∀ {gt : Sgf.GameTree} {rest : List item},
      parseGameTreeE items = .ok (gt, rest) →
      Sgf.wfTreeB gt = true ∧ (SInv .tree rest ∨ SInv .bytes rest) := by
  intro N
  induction N with
  | zero =>
    intro items hlen hs gt rest h
    have := parseGameTreeE_len items h
    omega
  | succ N ihN =>
    intro items hlen hs gt rest h
    rw [parseGameTreeE_def] at h
    rcases hs1 : parseSequence items with e | ⟨⟨sequence, ⟨lastItem, rest0⟩⟩⟩ <;> rw [hs1] at h
    · cases h
    · cases hs with
      | terr e0 rest1 => simp [parseSequence, parseSeqGo] at hs1
      | topen rest1 hs0 => simp [parseSequence, parseSeqGo] at hs1
      | tclose_t rest1 hs0 => simp [parseSequence, parseSeqGo] at hs1
      | tclose_b rest1 hs0 => simp [parseSequence, parseSeqGo] at hs1
      | tsemi rest1 hs0 =>
        simp only [parseSequence] at hs1
        obtain ⟨hseq, hlast, hcase⟩ :=
          P_seqGo rest1.length rest1 (Nat.le_refl _) [] .semiColon rfl
            (Or.inl ⟨rfl, hs0⟩) hs1
        have hopen : lastItem = .openParen → SInv .tree rest0 := by
          intro he
          rcases hcase with ⟨h1, h2⟩ | ⟨h1, h2⟩
          · exact h2
          · rw [he] at h1
            cases h1
        have hclose : lastItem = .closeParen → SInv .tree rest0 ∨ SInv .bytes rest0 := by
          intro he
          rcases hcase with ⟨h1, h2⟩ | ⟨h1, h2⟩
          · rw [he] at h1
            cases h1
          · exact h2
        have hlen2 : rest0.length ≤ N := by
          have hlt := parseSeqGo_len hs1
          simp only [List.length_cons] at hlen
          omega
        exact P_loopE_aux N (fun items2 h2 hs2 => ihN items2 h2 hs2)
          rest0 hlen2 sequence [] lastItem hseq hlast rfl hopen hclose h

/-- Well-formedness of the collection returned by a successful
`parseCollection` on a lexer stream. -/
theorem P_coll : ∀ (N : Nat) (items : List item), items.length ≤ N →
    (SInv .bytes items ∨ SInv .tree items) →
    ∀ (acc : List Sgf.GameTree), Sgf.wfForestB acc = true →
    ∀ {c : List Sgf.GameTree}, parseCollection acc items = (c, none) →
    Sgf.wfForestB c = true := by
  intro N
  induction N with
  | zero =>
    intro items hlen hs acc hacc c h
    have hnil : items = [] := by
      cases items with
      | nil => rfl
      | cons a b => simp at hlen
    subst hnil
    simp [parseCollection] at h
  | succ N ihN =>
    intro items hlen hs acc hacc c h
    rcases hs with hB | hT
    · cases hB with
      | berr e rest0 => simp [parseCollection] at h
      | beof rest0 =>
        simp only [parseCollection, Prod.mk.injEq] at h
        rw [← h.1]
        exact hacc
      | bclose_t rest0 hs0 => simp [parseCollection] at h
      | bclose_b rest0 hs0 => simp [parseCollection] at h
      | bopen rest0 hs0 =>
        rw [parseCollection_open] at h
        rcases hg : parseGameTreeE rest0 with e | ⟨⟨sub, rest'⟩⟩ <;> rw [hg] at h
        · simp at h
        · obtain ⟨hwf, hstream⟩ := P_treeE rest0.length rest0 (Nat.le_refl _) hs0 hg
          have hglen := parseGameTreeE_len rest0 hg
          have hlen2 : rest'.length ≤ N := by
            simp only [List.length_cons] at hlen
            omega
          have hacc2 : Sgf.wfForestB (acc ++ [sub]) = true := by
            rw [Sgf.wfForestB_snoc]
            simp [hacc, hwf]
          refine ihN rest' hlen2 ?_ (acc ++ [sub]) hacc2 h
          rcases hstream with a | b
          · exact Or.inr a
          · exact Or.inl b
    · cases hT with
      | terr e rest0 => simp [parseCollection] at h
      | tsemi rest0 hs0 => simp [parseCollection] at h
      | tclose_t rest0 hs0 => simp [parseCollection] at h
      | tclose_b rest0 hs0 => simp [parseCollection] at h
      | topen rest0 hs0 =>
        rw [parseCollection_open] at h
        rcases hg : parseGameTreeE rest0 with e | ⟨⟨sub, rest'⟩⟩ <;> rw [hg] at h
        · simp at h
        · obtain ⟨hwf, hstream⟩ := P_treeE rest0.length rest0 (Nat.le_refl _) hs0 hg
          have hglen := parseGameTreeE_len rest0 hg
          have hlen2 : rest'.length ≤ N := by
            simp only [List.length_cons] at hlen
            omega
          have hacc2 : Sgf.wfForestB (acc ++ [sub]) = true := by
            rw [Sgf.wfForestB_snoc]
            simp [hacc, hwf]
          refine ihN rest' hlen2 ?_ (acc ++ [sub]) hacc2 h
          rcases hstream with a | b
          · exact Or.inr a
          · exact Or.inl b

/-- A successful `Parse` returns a collection in which every tree is
well-formed. -/
theorem Parse_wf (data : List Char) (c : List Sgf.GameTree) (w : List String)
    (h : Parse data = (c, w, none)) : Sgf.wfForestB c = true := by
  have h1 := congrArg (fun x => x.1) h
  have h2 := congrArg (fun x => x.2.2) h
  simp only [Parse] at h1 h2
  have hpc : parseCollection [] (lex data) = (c, none) := Prod.ext h1 h2
  exact P_coll (lex data).length (lex data) (Nat.le_refl _)
    (Or.inl (lex_SInv data)) [] rfl hpc

end Parse

namespace Sgf

/-- String concatenation concatenates the character data. -/
theorem string_data_append (a b : String) : (a ++ b).data = a.data ++ b.data := by
  cases a
  cases b
  rfl

/-- The empty string is a left unit. -/
theorem string_empty_append (s : String) : "" ++ s = s := by
  cases s
  rfl

/-- Unfolding one element of `String.join`. -/
theorem string_join_cons (x : String) (l : List String) :
    String.join (x :: l) = x ++ String.join l := by
  unfold String.join
  simp only [List.foldl_cons]
  rw [stringFoldl_acc, string_empty_append]

end Sgf

namespace Parse

/-- A nonzero character code is not the end-of-input byte. -/
theorem ne_eofChar_of_toNat (c : Char) (h : c.toNat ≠ 0) : c ≠ eofChar := by
  intro he
  subst he
  exact h (by decide)

/-- The continuation state after closing a tree at outer depth `d`. -/
def contState (d : Nat) : stateFn :=
  if 0 < d then .lexTree else .lexBytes

/-- A semicolon at any of the three node-boundary states emits a
semicolon item and enters the identifier state. -/
theorem run_semi (s : stateFn) (d : Nat) (rest : List Char)
    (hs : s = .lexTree ∨ s = .lexIdent [] ∨ s = .lexAfterValue) :
    run s d (';' :: rest) = .semiColon :: run (.lexIdent []) d rest := by
  rcases hs with rfl | rfl | rfl <;> simp +decide [run, whitespaceChar]

/-- An opening parenthesis at a dispatch state emits an open-paren item
and enters the tree state one level deeper. -/
theorem run_open (s : stateFn) (d : Nat) (rest : List Char)
    (hs : s = .lexBytes ∨ s = .lexTree ∨ s = .lexAfterValue) :
    run s d ('(' :: rest) = .openParen :: run .lexTree (d + 1) rest := by
  rcases hs with rfl | rfl | rfl <;> simp +decide [run, whitespaceChar]

/-- A closing parenthesis at positive depth emits a close-paren item and
continues at the decremented depth. -/
theorem run_close (s : stateFn) (d : Nat) (rest : List Char) (hd : 0 < d)
    (hs : s = .lexBytes ∨ s = .lexTree ∨ s = .lexAfterValue) :
    run s d (')' :: rest) = .closeParen :: run (contState (d - 1)) (d - 1) rest := by
  have hd0 : ¬ d = 0 := by omega
  rcases hs with rfl | rfl | rfl <;>
    simp +decide only [run, whitespaceChar, if_neg hd0] <;>
    simp [contState, gt_iff_lt] <;>
    split <;> rfl

end Parse

namespace Parse

/-- One step of the value state: after a backslash the next character is
consumed blindly. -/
theorem run_value_esc (acc : List Char) (c : Char) (d : Nat) (rest : List Char) :
    run (.lexValue acc true) d (c :: rest) = run (.lexValue (acc ++ [c]) false) d rest := by
  simp [run]

/-- One step of the value state: a backslash enters escape mode. -/
theorem run_value_bs (acc : List Char) (d : Nat) (rest : List Char) :
    run (.lexValue acc false) d ('\\' :: rest) =
      run (.lexValue (acc ++ ['\\']) true) d rest := by
  simp +decide [run]

/-- One step of the value state: an unescaped closing bracket emits the
accumulated value. -/
theorem run_value_close (acc : List Char) (d : Nat) (rest : List Char) :
    run (.lexValue acc false) d (']' :: rest) =
      .propertyValue acc :: .closeBracket :: run .lexAfterValue d rest := by
  simp +decide [run]

/-- One step of the value state: an ordinary character is accumulated. -/
theorem run_value_chr (acc : List Char) (c : Char) (d : Nat) (rest : List Char)
    (h1 : c ≠ eofChar) (h2 : c ≠ '\\') (h3 : c ≠ ']') :
    run (.lexValue acc false) d (c :: rest) = run (.lexValue (acc ++ [c]) false) d rest := by
  simp [run, h1, h2, h3]

/-- Scanning an escape-closed value text consumes it verbatim up to the
closing bracket and emits the value and close-bracket items. -/
theorem run_valueScan : ∀ (N : Nat) (v : List Char), v.length ≤ N → valueOkB v = true →
    ∀ (acc : List Char) (d : Nat) (X : List Char),
    run (.lexValue acc false) d (v ++ ']' :: X) =
      .propertyValue (acc ++ v) :: .closeBracket :: run .lexAfterValue d X := by
  intro N
  induction N with
  | zero =>
    intro v hlen hok acc d X
    have hnil : v = [] := by
      cases v with
      | nil => rfl
      | cons a b => simp at hlen
    subst hnil
    simp only [List.nil_append, run_value_close, List.append_nil]
  | succ N ih =>
    intro v hlen hok acc d X
    cases v with
    | nil => simp only [List.nil_append, run_value_close, List.append_nil]
    | cons c v2 =>
      by_cases hc : c = '\\'
      · subst hc
        cases v2 with
        | nil => simp [valueOkB, valueTailOkB] at hok
        | cons c2 v3 =>
          simp only [valueOkB, if_pos rfl, valueTailOkB] at hok
          rw [List.cons_append, run_value_bs, List.cons_append, run_value_esc,
            ih v3 (by simp at hlen; omega) hok (acc ++ ['\\'] ++ [c2]) d X]
          simp
      · simp only [valueOkB, if_neg hc, Bool.and_eq_true, decide_eq_true_eq] at hok
        obtain ⟨⟨hbr, hnz⟩, hok2⟩ := hok
        have hce : c ≠ eofChar := ne_eofChar_of_toNat c hnz
        rw [List.cons_append, run_value_chr acc c d _ hce hc hbr,
          ih v2 (by simp at hlen; omega) hok2 (acc ++ [c]) d X]
        simp

/-- Scanning an identifier run of at most two upper-case letters up to
its opening bracket emits the identifier and open-bracket items. -/
theorem run_identScan : ∀ (cs acc : List Char) (d : Nat) (X : List Char),
    identOkB (acc ++ cs) = true → (acc ++ cs).length ≤ 2 →
    run (.lexIdent acc) d (cs ++ '[' :: X) =
      .propertyIdent (acc ++ cs) :: .openBracket :: run (.lexValue [] false) d X := by
  intro cs
  induction cs with
  | nil =>
    intro acc d X hid hlen
    simp only [List.append_nil] at hid hlen
    simp only [List.nil_append, run]
    split_ifs with h1 h2 h3 h4 h5
    · exact absurd h1.2 (by decide)
    · exact absurd h2 (by decide)
    · exact absurd h3 (by decide)
    · exact absurd h3 (by decide)
    · exact absurd h5 (by omega)
    · simp
  | cons c cs2 ih =>
    intro acc d X hid hlen
    have hup : 'A' ≤ c ∧ c ≤ 'Z' := by
      have hmem : c ∈ acc ++ c :: cs2 := by simp
      simp only [identOkB, List.all_eq_true, decide_eq_true_eq] at hid
      exact hid c hmem
    obtain ⟨hw, hne, hsc, hbr, hp, hq, hr⟩ := upper_facts c hup.1 hup.2
    simp only [List.cons_append, run]
    split_ifs with h1
    · rw [h1.2] at hw
      cases hw
    · simp only [List.append_eq]
      rw [ih (acc ++ [c]) d X (by simpa using hid) (by simpa using hlen)]
      simp

end Parse

namespace Sgf

/-- The empty string is a right unit. -/
theorem string_append_empty (s : String) : s ++ "" = s := by
  cases s with
  | mk data =>
    show String.mk (data ++ []) = String.mk data
    rw [List.append_nil]

end Sgf

namespace Parse

/-- An opening bracket directly after a value starts an empty
identifier's value. -/
theorem run_after_bracket (d : Nat) (X : List Char) :
    run .lexAfterValue d ('[' :: X) =
      .propertyIdent [] :: .openBracket :: run (.lexValue [] false) d X := by
  simp +decide [run, whitespaceChar]

/-- An upper-case letter after a value starts a new identifier run. -/
theorem run_after_upper (c : Char) (h1 : 'A' ≤ c) (h2 : c ≤ 'Z') (d : Nat) (X : List Char) :
    run .lexAfterValue d (c :: X) = run (.lexIdent [c]) d X := by
  obtain ⟨hw, hne, hsc, hbr, hp, hq, hr⟩ := upper_facts c h1 h2
  simp [run, hw, hne, hsc, hbr, hp, hq, hr]

/-- Scanning one serialized property group from a node boundary or an
after-value position emits its four items. -/
theorem run_prop (idv v : List Char) (hid : identOkB idv = true) (hlen : idv.length ≤ 2)
    (hval : valueOkB v = true) (s : stateFn) (hs : s = .lexIdent [] ∨ s = .lexAfterValue)
    (d : Nat) (X : List Char) :
    run s d (idv ++ '[' :: v ++ ']' :: X) =
      .propertyIdent idv :: .openBracket :: .propertyValue v :: .closeBracket ::
        run .lexAfterValue d X := by
  simp only [List.cons_append, List.append_assoc]
  rcases hs with rfl | rfl
  · rw [run_identScan idv [] d _ (by simpa using hid) (by simpa using hlen)]
    rw [run_valueScan v.length v (Nat.le_refl _) hval [] d X]
    simp
  · cases idv with
    | nil =>
      simp only [List.nil_append, run_after_bracket]
      rw [run_valueScan v.length v (Nat.le_refl _) hval [] d X]
      simp
    | cons c cs =>
      have hup : 'A' ≤ c ∧ c ≤ 'Z' := by
        simp only [identOkB, List.all_cons, Bool.and_eq_true, decide_eq_true_eq] at hid
        exact hid.1
      rw [List.cons_append, run_after_upper c hup.1 hup.2,
        run_identScan cs [c] d _ (by simpa using hid) (by simpa using hlen)]
      rw [run_valueScan v.length v (Nat.le_refl _) hval [] d X]
      simp

/-- The shape facts packed into a well-formed property. -/
theorem wfProperty_shape (p : Sgf.Property) (hp : Sgf.wfPropertyB p = true) :
    ∃ pv, p.values = [pv] ∧ identOkB p.identity.data = true ∧
      p.identity.data.length ≤ 2 ∧ valueOkB pv.value.data = true ∧
      (Sgf.Property.toString p).data = p.identity.data ++ '[' :: pv.value.data ++ [']'] ∧
      rawOf p = pv.value.data := by
  rcases hv : p.values with _ | ⟨pv, _ | ⟨pv2, rest3⟩⟩
  · rw [Sgf.wfPropertyB, hv] at hp
    cases hp
  · rw [Sgf.wfPropertyB, hv] at hp
    simp only [Bool.and_eq_true, decide_eq_true_eq] at hp
    obtain ⟨⟨⟨hid, hlen⟩, hval⟩, _⟩ := hp
    refine ⟨pv, rfl, hid, hlen, hval, ?_, ?_⟩
    · unfold Sgf.Property.toString
      rw [hv]
      simp only [List.map_cons, List.map_nil, Sgf.string_join_cons]
      have hj : String.join ([] : List String) = "" := rfl
      rw [hj, Sgf.string_append_empty]
      unfold Sgf.PropertyValue.toString
      rw [Sgf.string_data_append, Sgf.string_data_append, Sgf.string_data_append]
      simp
    · unfold rawOf
      rw [hv]
  · rw [Sgf.wfPropertyB, hv] at hp
    cases hp

/-- Scanning one well-formed property's serialization. -/
theorem run_prop_wf (p : Sgf.Property) (hp : Sgf.wfPropertyB p = true) (s : stateFn)
    (hs : s = .lexIdent [] ∨ s = .lexAfterValue) (d : Nat) (X : List Char) :
    run s d ((Sgf.Property.toString p).data ++ X) =
      propItems p ++ run .lexAfterValue d X := by
  obtain ⟨pv, hv, hid, hlen, hval, htos, hraw⟩ := wfProperty_shape p hp
  rw [htos]
  have halign : (p.identity.data ++ '[' :: pv.value.data ++ [']']) ++ X =
      p.identity.data ++ '[' :: pv.value.data ++ ']' :: X := by
    simp
  rw [halign, run_prop p.identity.data pv.value.data hid hlen hval s hs d X]
  simp [propItems, hraw]

/-- Scanning a run of well-formed serialized properties from the
after-value position. -/
theorem run_props_after : ∀ (props : List Sgf.Property),
    props.all Sgf.wfPropertyB = true → ∀ (d : Nat) (X : List Char),
    run .lexAfterValue d ((String.join (props.map Sgf.Property.toString)).data ++ X) =
      props.flatMap propItems ++ run .lexAfterValue d X := by
  intro props
  induction props with
  | nil =>
    intro hall d X
    simp [String.join]
  | cons p ps ih =>
    intro hall d X
    simp only [List.all_cons, Bool.and_eq_true] at hall
    simp only [List.map_cons, Sgf.string_join_cons, Sgf.string_data_append,
      List.append_assoc]
    rw [run_prop_wf p hall.1 .lexAfterValue (Or.inr rfl) d _]
    rw [ih hall.2 d X]
    simp

/-- Scanning a non-empty run of well-formed serialized properties from
the node-boundary position. -/
theorem run_props_head (p : Sgf.Property) (ps : List Sgf.Property)
    (hall : (p :: ps).all Sgf.wfPropertyB = true) (d : Nat) (X : List Char) :
    run (.lexIdent []) d ((String.join ((p :: ps).map Sgf.Property.toString)).data ++ X) =
      (p :: ps).flatMap propItems ++ run .lexAfterValue d X := by
  simp only [List.all_cons, Bool.and_eq_true] at hall
  simp only [List.map_cons, Sgf.string_join_cons, Sgf.string_data_append,
    List.append_assoc]
  rw [run_prop_wf p hall.1 (.lexIdent []) (Or.inl rfl) d _]
  rw [run_props_after ps hall.2 d X]
  simp

end Parse

namespace Parse

/-- Scanning a serialized well-formed node sequence from any
node-boundary state. -/
theorem run_nodes : ∀ (ns : List Sgf.Node), ns.all Sgf.wfNodeB = true →
    Sgf.lastNodeOk ns = true → ∀ (d : Nat) (X : List Char) (s : stateFn),
    (s = .lexTree ∨ s = .lexIdent [] ∨ s = .lexAfterValue) →
    run s d ((String.join (ns.map Sgf.Node.toString)).data ++ X) =
      ns.flatMap nodeItems ++ run .lexAfterValue d X := by
  intro ns
  induction ns with
  | nil =>
    intro hall hlast
    simp [Sgf.lastNodeOk] at hlast
  | cons n ns2 ih =>
    intro hall hlast d X s hs
    simp only [List.all_cons, Bool.and_eq_true] at hall
    have hnwf := hall.1
    rw [Sgf.wfNodeB, Bool.and_eq_true] at hnwf
    simp only [List.map_cons, Sgf.string_join_cons, Sgf.string_data_append,
      List.append_assoc]
    have hnode : (Sgf.Node.toString n).data =
        ';' :: (String.join (n.properties.map Sgf.Property.toString)).data := by
      unfold Sgf.Node.toString
      rw [Sgf.string_data_append]
      rfl
    rw [hnode, List.cons_append, run_semi s d _ hs]
    cases hprops : n.properties with
    | nil =>
      cases ns2 with
      | nil => simp [Sgf.lastNodeOk, hprops] at hlast
      | cons n2 ns3 =>
        have hlast2 : Sgf.lastNodeOk (n2 :: ns3) = true := by
          simpa [Sgf.lastNodeOk] using hlast
        have hj : (String.join (List.map Sgf.Property.toString [])).data = [] := rfl
        rw [hj, List.nil_append,
          ih hall.2 hlast2 d X (.lexIdent []) (Or.inr (Or.inl rfl))]
        simp [nodeItems, hprops]
    | cons p ps =>
      have hpall : (p :: ps).all Sgf.wfPropertyB = true := by
        rw [← hprops]
        exact hnwf.2
      rw [run_props_head p ps hpall d _]
      cases ns2 with
      | nil =>
        have hj : (String.join (List.map Sgf.Node.toString [])).data = [] := rfl
        rw [hj, List.nil_append]
        simp [nodeItems, hprops]
      | cons n2 ns3 =>
        have hlast2 : Sgf.lastNodeOk (n2 :: ns3) = true := by
          simpa [Sgf.lastNodeOk] using hlast
        rw [ih hall.2 hlast2 d X .lexAfterValue (Or.inr (Or.inr rfl))]
        simp [nodeItems, hprops]

/-- Scanning a serialized well-formed tree from any dispatch state emits
its canonical token stream and continues behind its closing
parenthesis. -/
theorem run_tree (gt : Sgf.GameTree) : Sgf.wfTreeB gt = true →
    ∀ (d : Nat) (X : List Char) (s : stateFn),
    (s = .lexBytes ∨ s = .lexTree ∨ s = .lexAfterValue) →
    run s d ((Sgf.GameTree.toString gt).data ++ X) =
      treeItems gt ++ run (contState d) d X := by
  induction gt using Sgf.GameTree.inductionOn with
  | _ seq subs IH =>
    intro hwf d X s hs
    rw [Sgf.wfTreeB, Bool.and_eq_true] at hwf
    have hseqwf := hwf.1
    rw [Sgf.wfSeqB, Bool.and_eq_true, Bool.and_eq_true] at hseqwf
    have htext : (Sgf.GameTree.toString (Sgf.GameTree.mk seq subs)).data ++ X =
        '(' :: ((String.join (seq.map Sgf.Node.toString)).data ++
          ((Sgf.GameTree.subtreesString subs).data ++ (')' :: X))) := by
      rw [Sgf.GameTree.toString]
      simp [Sgf.string_data_append, List.append_assoc]
    rw [htext, run_open s d _ hs,
      run_nodes seq hseqwf.1.2 hseqwf.2 (d + 1) _ .lexTree (Or.inl rfl)]
    have hloop : ∀ (gs : List Sgf.GameTree),
        (∀ g ∈ gs, Sgf.wfTreeB g = true →
          ∀ (d2 : Nat) (X2 : List Char) (s2 : stateFn),
          (s2 = .lexBytes ∨ s2 = .lexTree ∨ s2 = .lexAfterValue) →
          run s2 d2 ((Sgf.GameTree.toString g).data ++ X2) =
            treeItems g ++ run (contState d2) d2 X2) →
        Sgf.wfForestB gs = true → ∀ (s2 : stateFn),
        (s2 = .lexTree ∨ s2 = .lexAfterValue) → ∀ (Y : List Char),
        run s2 (d + 1) ((Sgf.GameTree.subtreesString gs).data ++ ')' :: Y) =
          forestItems gs ++ .closeParen :: run (contState d) d Y := by
      intro gs
      induction gs with
      | nil =>
        intro _ _ s2 hs2 Y
        have hj : (Sgf.GameTree.subtreesString []).data = [] := rfl
        rw [hj, List.nil_append,
          run_close s2 (d + 1) Y (by omega)
            (by rcases hs2 with rfl | rfl
                · exact Or.inr (Or.inl rfl)
                · exact Or.inr (Or.inr rfl))]
        simp [forestItems]
      | cons g gs2 ihg =>
        intro hmem hwfs s2 hs2 Y
        rw [Sgf.wfForestB, Bool.and_eq_true] at hwfs
        rw [Sgf.GameTree.subtreesString, Sgf.string_data_append, List.append_assoc,
          hmem g (by simp) hwfs.1 (d + 1) _ s2
            (by rcases hs2 with rfl | rfl
                · exact Or.inr (Or.inl rfl)
                · exact Or.inr (Or.inr rfl))]
        have hct : contState (d + 1) = .lexTree := by simp [contState]
        rw [hct, ihg (fun g2 hg2 => hmem g2 (by simp [hg2])) hwfs.2 .lexTree
          (Or.inl rfl) Y]
        simp [forestItems]
    rw [hloop subs (fun g hg => IH g hg) hwf.2 .lexAfterValue (Or.inr rfl) X]
    simp [treeItems]

/-- Scanning a serialized well-formed collection from the top level. -/
theorem run_coll : ∀ (gts : List Sgf.GameTree), Sgf.wfForestB gts = true →
    ∀ (X : List Char),
    run .lexBytes 0 ((Sgf.collectionString gts).data ++ X) =
      forestItems gts ++ run .lexBytes 0 X := by
  intro gts
  induction gts with
  | nil =>
    intro _ X
    have hj : (Sgf.collectionString []).data = [] := rfl
    rw [hj, List.nil_append, forestItems]
    rfl
  | cons gt gts2 ih =>
    intro hwf X
    rw [Sgf.wfForestB, Bool.and_eq_true] at hwf
    rw [Sgf.collectionString, Sgf.string_data_append, List.append_assoc,
      run_tree gt hwf.1 0 _ .lexBytes (Or.inl rfl)]
    have hc0 : contState 0 = .lexBytes := by simp [contState]
    rw [hc0, ih hwf.2 X, forestItems]
    simp

/-- The lexer output of a serialized well-formed collection is its
canonical token stream followed by the end-of-input item. -/
theorem lex_serialize (gts : List Sgf.GameTree) (h : Sgf.wfForestB gts = true) :
    lex (Sgf.collectionString gts).data = forestItems gts ++ [.eofItem] := by
  have h2 := run_coll gts h []
  rw [List.append_nil] at h2
  unfold lex
  rw [h2]
  rfl

end Parse
